import Mathlib

/-
Verification of the Kamailio configuration formatter
(src/src/extension.ts): a shallow embedding of
formatKamailioConfig and validateKamailioConfig over lists of
characters, together with theorems about the behaviour that the
specification describes.

JavaScript semantics modelled here:
  * String.prototype.trim strips whitespace from both ends
    (restricted to the ASCII whitespace characters relevant to
    config files: space, tab, newline, carriage return, vertical
    tab, form feed);
  * String.prototype.split with separator newline;
  * "  ".repeat(n) yields 2*n spaces for n ≥ 0 and throws a
    RangeError for negative n, modelled as Option.none;
  * exceptions of the validator are modelled with Except.
-/

/-- Whitespace test matching the characters stripped by the JavaScript
trim operation on the ASCII range. -/
def wsChar (c : Char) : Bool :=
  c == ' ' || c == '\t' || c == '\n' || c == '\r' || c == '\x0b' || c == '\x0c'

/-- Remove leading whitespace characters. -/
def trimL (l : List Char) : List Char :=
  List.dropWhile wsChar l

/-- Remove trailing whitespace characters. -/
def trimR : List Char → List Char
  | [] => []
  | c :: r =>
    match trimR r with
    | [] => if wsChar c = true then [] else [c]
    | d :: r2 => c :: d :: r2

/-- The JavaScript trim operation: strip whitespace from both ends. -/
def jsTrim (l : List Char) : List Char := trimR (trimL l)

/-- Auxiliary splitter: first line and remaining lines of a character
sequence split at newline characters. -/
def splitLinesA : List Char → List Char × List (List Char)
  | [] => ([], [])
  | c :: r =>
    match splitLinesA r with
    | (h, t) => if c = '\n' then ([], h :: t) else (c :: h, t)

/-- JavaScript split on the newline separator; the empty string yields
one empty line. -/
def splitLines (l : List Char) : List (List Char) :=
  (splitLinesA l).1 :: (splitLinesA l).2

/-- JavaScript Array.prototype.join with newline separator. -/
def joinLines : List (List Char) → List Char
  | [] => []
  | [l] => l
  | l :: l2 :: ls => l ++ '\n' :: joinLines (l2 :: ls)

/-- JavaScript String.prototype.startsWith: first argument is the
pattern, second the subject. -/
def leadsWith : List Char → List Char → Bool
  | [], _ => true
  | _ :: _, [] => false
  | p :: ps, c :: cs => p == c && leadsWith ps cs

/-- JavaScript String.prototype.includes for a single character. -/
def hasChar (x : Char) : List Char → Bool
  | [] => false
  | c :: r => c == x || hasChar x r

/-- JavaScript String.prototype.includes for a multi-character pattern. -/
def hasSeq (pat : List Char) : List Char → Bool
  | [] => leadsWith pat []
  | c :: r => leadsWith pat (c :: r) || hasSeq pat r

/-- Number of occurrences of a character, as used by the validator's
global regular-expression match counts. -/
def countChar (x : Char) : List Char → Nat
  | [] => 0
  | c :: r => (if c = x then 1 else 0) + countChar x r

/-- JavaScript String.prototype.endsWith for a single character: the
last character of the sequence. -/
def lastChar : List Char → Option Char
  | [] => none
  | [c] => some c
  | _ :: c :: r => lastChar (c :: r)

/- Literal patterns appearing in the source. -/

def bangL : List Char := ("#!").data

def kamailioL : List Char := ("#!KAMAILIO").data

def defineL : List Char := ("#!define").data

def ifdefL : List Char := ("#!ifdef").data

def ifndefL : List Char := ("#!ifndef").data

def elseDirL : List Char := ("#!else").data

def endifL : List Char := ("#!endif").data

def bannerL : List Char := ("#####").data

def hashL : List Char := ("#").data

def listenL : List Char := ("listen=").data

def loadmoduleL : List Char := ("loadmodule").data

def modparamL : List Char := ("modparam").data

def eqeqL : List Char := ("==").data

def ifL : List Char := ("if").data

def elseKwL : List Char := ("else").data

/-- The route declaration patterns of the source, in source order. -/
def routeDeclsL : List (List Char) :=
  [("route[").data, ("failure_route[").data, ("onreply_route[").data,
   ("event_route[").data, ("request_route").data]

/-- The SIP-specific function patterns of the source, in source order. -/
def sipFnsL : List (List Char) :=
  [("t_").data, ("sl_").data, ("xlog").data, ("rtpengine_").data, ("ds_").data,
   ("append_hf").data, ("remove_hf").data, ("is_method").data, ("record_route").data]

/-- Result record of formatKamailioConfig: the original content and the
formatted content. -/
structure KamailioConfig where
  content : String
  formattedContent : String
  deriving DecidableEq

/-- The mutable state threaded through the formatting pass: current
indentation level, preprocessor-block flag, and the emitted lines. -/
structure FmtState where
  indentLevel : Int
  inPreprocessorBlock : Bool
  formattedLines : List (List Char)
  deriving DecidableEq

/-- Model of the JavaScript expression two-spaces .repeat(n): 2*n space
characters for n ≥ 0, a RangeError (none) for negative n. -/
def indentRepeat (n : Int) : Option (List Char) :=
  if n < 0 then none else some (List.replicate (2 * n.toNat) ' ')

/-- Append emitted lines to the state. -/
def pushQ (st : FmtState) (ls : List (List Char)) : FmtState :=
  { st with formattedLines := st.formattedLines ++ ls }

/-- One iteration of the formatting loop on an already trimmed line,
mirroring the if/else chain of the source exactly, in source order. -/
def processTrimmed (st : FmtState) (t : List Char) : Option FmtState :=
  if t = [] then some (pushQ st [[]])
  else if leadsWith bangL t = true then
    (if t = kamailioL then some (pushQ st [t, []])
     else if leadsWith defineL t = true then some (pushQ st [t])
     else if leadsWith ifdefL t = true ∨ leadsWith ifndefL t = true then
       some { pushQ st [[], t] with
                indentLevel := st.indentLevel + 1, inPreprocessorBlock := true }
     else if t = elseDirL then
       some { pushQ st [t] with indentLevel := st.indentLevel - 1 + 1 }
     else if t = endifL then
       some { pushQ st [t, []] with
                indentLevel := st.indentLevel - 1, inPreprocessorBlock := false }
     else some (pushQ st [t]))
  else if leadsWith bannerL t = true then some (pushQ st [[], t, []])
  else if leadsWith hashL t = true then
    (if st.inPreprocessorBlock = true ∨ 0 < st.indentLevel then
       (indentRepeat st.indentLevel).bind (fun ind => some (pushQ st [ind ++ t]))
     else some (pushQ st [t]))
  else if leadsWith listenL t = true then some (pushQ st [t])
  else if hasChar '\x7b' t = true then
    (indentRepeat st.indentLevel).bind
      (fun ind => some { pushQ st [ind ++ t] with indentLevel := st.indentLevel + 1 })
  else if hasChar '\x7d' t = true then
    (indentRepeat (max 0 (st.indentLevel - 1))).bind
      (fun ind => some { pushQ st [ind ++ t] with
                           indentLevel := max 0 (st.indentLevel - 1) })
  else if leadsWith loadmoduleL t = true then
    (indentRepeat st.indentLevel).bind (fun ind => some (pushQ st [ind ++ t]))
  else if leadsWith modparamL t = true then
    (indentRepeat st.indentLevel).bind (fun ind => some (pushQ st [ind ++ t]))
  else if (routeDeclsL.any (fun p => leadsWith p t)) = true then
    (indentRepeat st.indentLevel).bind (fun ind => some (pushQ st [[], ind ++ t]))
  else if hasChar '=' t = true ∧ hasSeq eqeqL t = false then
    (indentRepeat st.indentLevel).bind (fun ind => some (pushQ st [ind ++ t]))
  else if (sipFnsL.any (fun p => leadsWith p t)) = true then
    (indentRepeat st.indentLevel).bind (fun ind => some (pushQ st [ind ++ t]))
  else if leadsWith ifL t = true ∨ leadsWith elseKwL t = true then
    (indentRepeat st.indentLevel).bind
      (fun ind => some { pushQ st [ind ++ t] with
        indentLevel :=
          if lastChar t = some '\x7b' then st.indentLevel else st.indentLevel + 1 })
  else (indentRepeat st.indentLevel).bind (fun ind => some (pushQ st [ind ++ t]))

/-- The formatting loop over all lines; each raw line is trimmed before
classification, as in the source. -/
def runFormat : FmtState → List (List Char) → Option FmtState
  | st, [] => some st
  | st, l :: ls => (processTrimmed st (jsTrim l)).bind (fun st2 => runFormat st2 ls)

/-- Initial formatter state. -/
def initState : FmtState := ⟨0, false, []⟩

/-- The formatting entry point: trim the whole document, split into
lines, run the loop, join the emitted lines, and return the original
content next to the formatted content. -/
def formatKamailioConfig (configContent : String) : Option KamailioConfig :=
  (runFormat initState (splitLines (jsTrim (configContent.data)))).map
    (fun st => ⟨configContent, String.mk (joinLines st.formattedLines)⟩)

/-- The failure kinds of the validator. -/
inductive ValError where
  | unexpectedEndif (line : Nat)
  | unexpectedClosingBracket (line : Nat)
  | unmatchedBrackets
  | unmatchedPreprocessor
  deriving DecidableEq

/-- The preprocessor-counter step of one validator iteration on a
trimmed line: increment on ifdef/ifndef, decrement on an exact endif
and fail when the counter would go negative, naming the 1-based line. -/
def preStep (preCount : Int) (i : Nat) (t : List Char) : Except ValError Int :=
  if leadsWith ifdefL t = true ∨ leadsWith ifndefL t = true then
    Except.ok (preCount + 1)
  else if t = endifL then
    (if preCount - 1 < 0 then Except.error (ValError.unexpectedEndif (i + 1))
     else Except.ok (preCount - 1))
  else Except.ok preCount

/-- The validation loop: block counter, preprocessor counter, 0-based
line index, remaining lines. Mirrors the source: the preprocessor check
of a line runs before its brace count, errors abort the scan, and the
end-of-document checks test braces before preprocessor balance. -/
def validateLoop : Int → Int → Nat → List (List Char) → Except ValError Unit
  | blockCount, preCount, _, [] =>
    if blockCount ≠ 0 then Except.error ValError.unmatchedBrackets
    else if preCount ≠ 0 then Except.error ValError.unmatchedPreprocessor
    else Except.ok ()
  | blockCount, preCount, i, l :: ls =>
    match preStep preCount i (jsTrim l) with
    | Except.error e => Except.error e
    | Except.ok p2 =>
      if blockCount + (countChar '\x7b' (jsTrim l) : Int) -
          (countChar '\x7d' (jsTrim l) : Int) < 0 then
        Except.error (ValError.unexpectedClosingBracket (i + 1))
      else
        validateLoop (blockCount + (countChar '\x7b' (jsTrim l) : Int) -
          (countChar '\x7d' (jsTrim l) : Int)) p2 (i + 1) ls

/-- The validation entry point: the raw content is split into lines
without a whole-document trim. -/
def validateKamailioConfig (content : String) : Except ValError Unit :=
  validateLoop 0 0 0 (splitLines (content.data))

deriving instance DecidableEq for Except

/- Definitions supporting the statements of the claims. -/

/-- Number of leading space characters of a line: the indentation the
formatter gave it. -/
def lineIndentWidth (l : List Char) : Nat :=
  (l.takeWhile (fun c => c == ' ')).length

/-- Net brace contribution of a trimmed line: opening braces minus
closing braces. -/
def braceDelta (t : List Char) : Int :=
  (countChar '\x7b' t : Int) - (countChar '\x7d' t : Int)

/-- Keep only the non-blank lines of a list of (trimmed) lines. -/
def filterNB : List (List Char) → List (List Char)
  | [] => []
  | t :: ts => if t = [] then filterNB ts else t :: filterNB ts

/-- The trimmed texts of the non-blank lines of a document. -/
def trimsNB (s : List Char) : List (List Char) :=
  filterNB ((splitLines s).map jsTrim)

/-- Rendering of the brace-depth-consistency property of the
specification, folded over the lines of a document with running net
brace depth d: a comment line (leading hash after trimming) is ignored
when measuring depth; any other line counts its closing braces before
it is measured and its opening braces after; every non-empty line must
be indented by exactly two spaces per depth level. -/
def consistAux (d : Int) : List (List Char) → Bool
  | [] => true
  | l :: rest =>
    match leadsWith hashL (jsTrim l) with
    | true =>
      (decide (l = []) || decide ((lineIndentWidth l : Int) = 2 * d)) &&
        consistAux d rest
    | false =>
      (decide (l = []) ||
        decide ((lineIndentWidth l : Int) =
                  2 * (d - (countChar '\x7d' (jsTrim l) : Int)))) &&
        consistAux (d + braceDelta (jsTrim l)) rest

/-- Brace-depth consistency of a formatted document, per the
specification: every line is indented two spaces per net brace level. -/
def indentConsistentB (ls : List (List Char)) : Bool :=
  consistAux 0 ls

/-- All prefixes of the brace scan stay non-negative, starting from
count b, over a list of trimmed lines. -/
def scanOk (b : Int) : List (List Char) → Prop
  | [] => True
  | t :: ts => 0 ≤ b + braceDelta t ∧ scanOk (b + braceDelta t) ts

/-- A trimmed line that triggers none of the blank-line-inserting rules
of the formatter: not the KAMAILIO directive, not ifdef/ifndef, not
endif, not a section banner, not a route declaration. -/
def noBlankInsertLine (t : List Char) : Bool :=
  !(t == kamailioL) && !(leadsWith ifdefL t) && !(leadsWith ifndefL t) &&
  !(t == endifL) && !(leadsWith bannerL t) &&
  !(routeDeclsL.any (fun p => leadsWith p t))

/-- Every line of the document (as the formatter sees it: whole-document
trim, then split) avoids the blank-line-inserting rules. -/
def noBlankInsertLines (s : String) : Bool :=
  (splitLines (jsTrim (s.data))).all (fun l => noBlankInsertLine (jsTrim l))

/-- A trimmed line whose indentation can track pure brace depth: no
preprocessor directive, no listen directive, no section banner, a
comment carries no braces, any other line carries at most one brace
character, and a conditional line carries a brace. -/
def braceTrackedLine (t : List Char) : Bool :=
  !(leadsWith bangL t) && !(leadsWith listenL t) && !(leadsWith bannerL t) &&
  (if leadsWith hashL t = true then
    countChar '\x7b' t == 0 && countChar '\x7d' t == 0
   else decide (countChar '\x7b' t + countChar '\x7d' t ≤ 1)) &&
  (!(leadsWith ifL t) && !(leadsWith elseKwL t) ||
    (hasChar '\x7b' t || hasChar '\x7d' t))

/-- Every line of the document, as the formatter sees it, is
brace-tracked. -/
def braceTrackedLines (s : String) : Bool :=
  (splitLines (jsTrim (s.data))).all (fun l => braceTrackedLine (jsTrim l))

/-- The lines one loop iteration emits at indentation level d for a
trimmed line t, valid for iterations whose state has the preprocessor
flag clear and whose line is outside the KAMAILIO, ifdef/ifndef, endif
and banner branches (those the restricted classes below exclude). -/
def emitMany (d : Int) (t : List Char) : List (List Char) :=
  if t = [] then [[]]
  else if leadsWith bangL t = true then [t]
  else if leadsWith hashL t = true then
    [if 0 < d then List.replicate (2 * d.toNat) ' ' ++ t else t]
  else if leadsWith listenL t = true then [t]
  else if hasChar '\x7b' t = true then [List.replicate (2 * d.toNat) ' ' ++ t]
  else if hasChar '\x7d' t = true then
    [List.replicate (2 * (max 0 (d - 1)).toNat) ' ' ++ t]
  else if leadsWith loadmoduleL t = true then [List.replicate (2 * d.toNat) ' ' ++ t]
  else if leadsWith modparamL t = true then [List.replicate (2 * d.toNat) ' ' ++ t]
  else if (routeDeclsL.any (fun p => leadsWith p t)) = true then
    [[], List.replicate (2 * d.toNat) ' ' ++ t]
  else [List.replicate (2 * d.toNat) ' ' ++ t]

/-- The indentation level after one loop iteration at level d on a
trimmed line t, under the same conditions as emitMany. -/
def nextD (d : Int) (t : List Char) : Int :=
  if t = [] then d
  else if leadsWith bangL t = true then d
  else if leadsWith hashL t = true then d
  else if leadsWith listenL t = true then d
  else if hasChar '\x7b' t = true then d + 1
  else if hasChar '\x7d' t = true then max 0 (d - 1)
  else if leadsWith loadmoduleL t = true then d
  else if leadsWith modparamL t = true then d
  else if (routeDeclsL.any (fun p => leadsWith p t)) = true then d
  else if hasChar '=' t = true ∧ hasSeq eqeqL t = false then d
  else if (sipFnsL.any (fun p => leadsWith p t)) = true then d
  else if leadsWith ifL t = true ∨ leadsWith elseKwL t = true then
    (if lastChar t = some '\x7b' then d else d + 1)
  else d

/-- All lines emitted by the loop started at level d, under the same
conditions as emitMany. -/
def emitAll (d : Int) : List (List Char) → List (List Char)
  | [] => []
  | l :: ls => emitMany d (jsTrim l) ++ emitAll (nextD d (jsTrim l)) ls

/-- The indentation level after the loop started at level d. -/
def depthAfterRun (d : Int) : List (List Char) → Int
  | [] => d
  | l :: ls => depthAfterRun (nextD d (jsTrim l)) ls

/-- The blank-line discipline claimed for the KAMAILIO directive: every
occurrence of the directive in the emitted lines is immediately
followed by a blank line (in particular it is never the last line). -/
def kamOk : List (List Char) → Prop
  | [] => True
  | [x] => x ≠ kamailioL
  | x :: y :: rest => (x = kamailioL → y = []) ∧ kamOk (y :: rest)

/- Concrete evaluations settling the scenario claims. -/

/-- Claim C1: the specification says formatKamailioConfig never raises
and clamps the depth to 0 on malformed input. The code clamps only the
closing-brace decrement; the endif branch decrements without a clamp,
and the subsequent two-space repeat with a negative count raises a
RangeError. On the input consisting of a stray endif directive followed
by a plain line, the formatter fails instead of returning a result. -/
theorem format_raises_on_stray_endif :
    formatKamailioConfig "#!endif\na" = none := by decide

/-- Claim C3: the specification says the indentation depth never goes
negative (clamped at 0). After processing a single stray endif line
from the initial state, the formatter's indentLevel is -1: the endif
branch decrements without clamping. -/
theorem indentLevel_negative_after_stray_endif :
    (runFormat initState (splitLines (jsTrim (("#!endif").data)))).map
      (fun st => st.indentLevel) = some (-1) := by decide

/-- Claim C4, counterexample: on the scenario-2 input the formatter does
not produce the output the specification claims (no blank line is
inserted before the route line and no trailing newline survives). -/
theorem scenario2_claimed_output_wrong :
    (formatKamailioConfig "route[A]\x7b\nxlog(\"x\");\n\x7d\n").map
      (fun c => c.formattedContent) ≠
      some ("\nroute[A]\x7b\n  xlog(\"x\");\n\x7d\n") := by decide

/-- Claim C4, amended: the route line of the scenario-2 input contains
an opening brace, so the block-opener rule (checked before the route
rule) handles it, without inserting a blank line; the body is indented
one level, the closing brace returns to depth 0, and the
whole-document trim drops the trailing newline. -/
theorem scenario2_actual_output :
    formatKamailioConfig "route[A]\x7b\nxlog(\"x\");\n\x7d\n" =
      some ⟨"route[A]\x7b\nxlog(\"x\");\n\x7d\n",
            "route[A]\x7b\n  xlog(\"x\");\n\x7d"⟩ := by decide

/-- Claim C7: on the scenario-3 input with one unmatched closing brace
the validator fails with the UnexpectedClosingBracket kind at line 3,
while the formatter still returns a result. -/
theorem scenario3_validator_fails_formatter_returns :
    validateKamailioConfig "\x7b\n\x7d\n\x7d\n" =
      Except.error (ValError.unexpectedClosingBracket 3) ∧
    formatKamailioConfig "\x7b\n\x7d\n\x7d\n" =
      some ⟨"\x7b\n\x7d\n\x7d\n", "\x7b\n\x7d\n\x7d"⟩ := by
  exact ⟨by decide, by decide⟩

/-- Claim C8: on five consecutive endif lines with no opener the
validator fails at the first stray endif, reporting line 1, without
continuing the scan. -/
theorem validator_fails_at_first_stray_endif :
    validateKamailioConfig "#!endif\n#!endif\n#!endif\n#!endif\n#!endif\n" =
      Except.error (ValError.unexpectedEndif 1) := by decide

/-- Claim C2, counterexample: the input consisting of the KAMAILIO
directive and one plain line is well-formed (the validator accepts it),
yet formatting its formatted output inserts a second blank line after
the directive, so formatting is not idempotent. -/
theorem format_not_idempotent_on_well_formed_input :
    validateKamailioConfig "#!KAMAILIO\na" = Except.ok () ∧
    formatKamailioConfig "#!KAMAILIO\na" =
      some ⟨"#!KAMAILIO\na", "#!KAMAILIO\n\na"⟩ ∧
    formatKamailioConfig "#!KAMAILIO\n\na" =
      some ⟨"#!KAMAILIO\n\na", "#!KAMAILIO\n\n\na"⟩ ∧
    ("#!KAMAILIO\n\n\na" : String) ≠ "#!KAMAILIO\n\na" := by
  exact ⟨by decide, by decide, by decide, by decide⟩

/-- Claim C5, counterexample: the input with a braceless conditional is
well-formed (no braces, no preprocessor directives, so the validator
accepts it), yet the conditional rule increments the depth without any
brace, so the second output line is indented two spaces while its net
brace depth is 0: the emitted indentation does not equal two spaces per
net brace level. -/
theorem indentation_exceeds_brace_depth_on_braceless_if :
    validateKamailioConfig "if (a)\nb" = Except.ok () ∧
    (formatKamailioConfig "if (a)\nb").map (fun c => c.formattedContent) =
      some ("if (a)\n  b") ∧
    indentConsistentB (splitLines (("if (a)\n  b").data)) = false := by
  exact ⟨by decide, by decide, by decide⟩

/-- Claim C6, counterexample: a blank line already following the
KAMAILIO directive in the input is kept in addition to the inserted
one, so the directive is followed by two blank lines, not exactly
one. -/
theorem kamailio_blank_run_not_collapsed :
    (formatKamailioConfig "#!KAMAILIO\n\na").map (fun c => c.formattedContent) =
      some ("#!KAMAILIO\n\n\na") ∧
    splitLines (("#!KAMAILIO\n\n\na").data) = [kamailioL, [], [], [ 'a' ]] := by
  exact ⟨by decide, by decide⟩

/-- Claim C9: whenever formatKamailioConfig returns a structure, its
content field is exactly the original input text. -/
theorem format_returns_original_content (s : String) (c : KamailioConfig)
    (h : formatKamailioConfig s = some c) : c.content = s := by
  unfold formatKamailioConfig at h
  cases hr : runFormat initState (splitLines (jsTrim (s.data))) with
  | none => rw [hr] at h; exact Option.noConfusion h
  | some st =>
    rw [hr] at h
    simp only [Option.map_some'] at h
    injection h with h2
    subst h2
    rfl

/-- Witness for claim C9 at a concrete input. -/
theorem format_returns_original_content_witness :
    (⟨"a", "a"⟩ : KamailioConfig).content = "a" :=
  format_returns_original_content "a" ⟨"a", "a"⟩ (by decide)

/- Library of facts about the trim operations. -/

theorem trimR_cons (c : Char) (r : List Char) :
    trimR (c :: r) = if trimR r = [] ∧ wsChar c = true then [] else c :: trimR r := by
  cases h : trimR r with
  | nil => simp [trimR, h]
  | cons d r2 => simp [trimR, h]

theorem trimR_eq_nil_iff (l : List Char) :
    trimR l = [] ↔ ∀ c ∈ l, wsChar c = true := by
  induction l with
  | nil => simp [trimR]
  | cons c r ih =>
    rw [trimR_cons]
    by_cases h : trimR r = [] ∧ wsChar c = true
    · rw [if_pos h]
      constructor
      · intro _ x hx
        rcases List.mem_cons.mp hx with hx | hx
        · exact hx ▸ h.2
        · exact ih.mp h.1 x hx
      · intro _
        rfl
    · rw [if_neg h]
      constructor
      · intro hc
        exact absurd hc (List.cons_ne_nil c (trimR r))
      · intro hall
        exact absurd ⟨ih.mpr fun x hx => hall x (List.mem_cons_of_mem c hx),
          hall c (List.mem_cons_self c r)⟩ h

theorem trimR_decomp (l : List Char) :
    ∃ b, l = trimR l ++ b ∧ ∀ c ∈ b, wsChar c = true := by
  induction l with
  | nil => exact ⟨[], rfl, by simp⟩
  | cons c r ih =>
    obtain ⟨b, hb, hws⟩ := ih
    rw [trimR_cons]
    by_cases h : trimR r = [] ∧ wsChar c = true
    · refine ⟨c :: r, ?_, ?_⟩
      · rw [if_pos h]
        rfl
      · intro x hx
        rcases List.mem_cons.mp hx with hx | hx
        · exact hx ▸ h.2
        · have hrb : r = b := by
            have := hb
            rw [h.1] at this
            simpa using this
          exact hws x (hrb ▸ hx)
    · refine ⟨b, ?_, hws⟩
      rw [if_neg h, List.cons_append]
      exact congrArg (c :: ·) hb

theorem trimR_idem (l : List Char) : trimR (trimR l) = trimR l := by
  induction l with
  | nil => simp [trimR]
  | cons c r ih =>
    rw [trimR_cons]
    by_cases h : trimR r = [] ∧ wsChar c = true
    · simp [if_pos h, trimR]
    · rw [if_neg h, trimR_cons, ih]
      rw [if_neg h]

theorem lastChar_cons_cons (x c : Char) (r : List Char) :
    lastChar (x :: c :: r) = lastChar (c :: r) := rfl

theorem lastChar_cons_ne (x : Char) (l : List Char) (h : l ≠ []) :
    lastChar (x :: l) = lastChar l := by
  cases l with
  | nil => exact absurd rfl h
  | cons c r => rfl

theorem trimR_last_not_ws (l : List Char) (h : trimR l ≠ []) :
    ∃ c, lastChar (trimR l) = some c ∧ wsChar c = false := by
  induction l with
  | nil => simp [trimR] at h
  | cons c r ih =>
    rw [trimR_cons] at h ⊢
    by_cases hc : trimR r = [] ∧ wsChar c = true
    · exact absurd (if_pos hc) h
    · rw [if_neg hc]
      by_cases hr : trimR r = []
      · have hcw : wsChar c = false := by
          cases hw : wsChar c with
          | false => rfl
          | true => exact absurd ⟨hr, hw⟩ hc
        exact ⟨c, by rw [hr]; rfl, hcw⟩
      · obtain ⟨d, hd, hdw⟩ := ih hr
        refine ⟨d, ?_, hdw⟩
        rw [lastChar_cons_ne c (trimR r) hr]
        exact hd

theorem trimL_cons_of_ws (c : Char) (r : List Char) (h : wsChar c = true) :
    trimL (c :: r) = trimL r := by
  simp [trimL, List.dropWhile_cons, h]

theorem trimL_cons_of_not_ws (c : Char) (r : List Char) (h : wsChar c = false) :
    trimL (c :: r) = c :: r := by
  simp [trimL, List.dropWhile_cons, h]

theorem trimL_head_not_ws (l : List Char) (c : Char) (r : List Char)
    (h : trimL l = c :: r) : wsChar c = false := by
  induction l with
  | nil => simp [trimL] at h
  | cons d t ih =>
    by_cases hd : wsChar d = true
    · rw [trimL_cons_of_ws d t hd] at h
      exact ih h
    · have hd2 : wsChar d = false := by simpa using hd
      rw [trimL_cons_of_not_ws d t hd2] at h
      cases h
      exact hd2

theorem trimL_decomp (l : List Char) :
    ∃ a, l = a ++ trimL l ∧ ∀ c ∈ a, wsChar c = true := by
  refine ⟨l.takeWhile wsChar, ?_, ?_⟩
  · exact (List.takeWhile_append_dropWhile wsChar l).symm
  · intro c hc
    exact List.mem_takeWhile_imp hc

theorem trimR_head_eq (l : List Char) (h : trimR l ≠ []) :
    (trimR l).head? = l.head? := by
  cases l with
  | nil => rfl
  | cons c r =>
    rw [trimR_cons] at h ⊢
    by_cases hc : trimR r = [] ∧ wsChar c = true
    · exact absurd (if_pos hc) h
    · rw [if_neg hc]; rfl

theorem trimL_fix_jsTrim (l : List Char) : trimL (jsTrim l) = jsTrim l := by
  unfold jsTrim
  by_cases h : trimR (trimL l) = []
  · rw [h]
    rfl
  · cases hl : trimR (trimL l) with
    | nil => exact absurd hl h
    | cons c r =>
      have hh := trimR_head_eq (trimL l) (by rw [hl]; exact List.cons_ne_nil c r)
      rw [hl] at hh
      cases hm : trimL l with
      | nil => rw [hm] at hl; simp [trimR] at hl
      | cons d t =>
        rw [hm] at hh
        simp only [List.head?_cons, Option.some.injEq] at hh
        have : wsChar c = false := hh ▸ trimL_head_not_ws l d t hm
        exact trimL_cons_of_not_ws c r this

theorem jsTrim_idem (l : List Char) : jsTrim (jsTrim l) = jsTrim l := by
  show trimR (trimL (jsTrim l)) = jsTrim l
  rw [trimL_fix_jsTrim]
  exact trimR_idem (trimL l)

theorem trimL_replicate_space (k : Nat) (u : List Char) :
    trimL (List.replicate k ' ' ++ u) = trimL u := by
  induction k with
  | zero => simp
  | succ n ih =>
    rw [List.replicate_succ, List.cons_append, trimL_cons_of_ws]
    · exact ih
    · rfl

theorem jsTrim_replicate_space (k : Nat) (u : List Char) :
    jsTrim (List.replicate k ' ' ++ u) = jsTrim u := by
  unfold jsTrim
  rw [trimL_replicate_space]

theorem lastChar_ne_none (l : List Char) (h : l ≠ []) :
    ∃ c, lastChar l = some c := by
  induction l with
  | nil => exact absurd rfl h
  | cons c r ih =>
    cases r with
    | nil => exact ⟨c, rfl⟩
    | cons d t => exact ih (List.cons_ne_nil d t)

theorem lastChar_append (a b : List Char) (hb : b ≠ []) :
    lastChar (a ++ b) = lastChar b := by
  induction a with
  | nil => rfl
  | cons c r ih =>
    rw [List.cons_append, lastChar_cons_ne c (r ++ b), ih]
    intro hc
    exact hb (List.append_eq_nil.mp hc).2

theorem trimR_eq_self_of_last (l : List Char) (c : Char)
    (h : lastChar l = some c) (hw : wsChar c = false) : trimR l = l := by
  induction l with
  | nil => rfl
  | cons d r ih =>
    cases r with
    | nil =>
      cases h
      rw [trimR_cons]
      simp [trimR, hw]
    | cons e t =>
      have hr : trimR (e :: t) = e :: t := ih (by rwa [lastChar_cons_ne d (e :: t) (List.cons_ne_nil e t)] at h)
      rw [trimR_cons, hr]
      rw [if_neg]
      intro hc
      exact List.cons_ne_nil e t hc.1

theorem trimL_eq_self_of_head (l : List Char) (c : Char) (r : List Char)
    (h : l = c :: r) (hw : wsChar c = false) : trimL l = l := by
  rw [h]
  exact trimL_cons_of_not_ws c r hw

theorem jsTrim_head_not_ws (l : List Char) (c : Char) (r : List Char)
    (h : jsTrim l = c :: r) : wsChar c = false := by
  have hne : trimR (trimL l) ≠ [] := by
    rw [show trimR (trimL l) = jsTrim l from rfl, h]
    exact List.cons_ne_nil c r
  have hh := trimR_head_eq (trimL l) hne
  rw [show trimR (trimL l) = jsTrim l from rfl, h] at hh
  cases hm : trimL l with
  | nil => rw [hm] at hh; simp at hh
  | cons d t =>
    rw [hm] at hh
    simp only [List.head?_cons, Option.some.injEq] at hh
    exact hh ▸ trimL_head_not_ws l d t hm

theorem jsTrim_last_not_ws (l : List Char) (h : jsTrim l ≠ []) :
    ∃ c, lastChar (jsTrim l) = some c ∧ wsChar c = false :=
  trimR_last_not_ws (trimL l) h

theorem jsTrim_eq_self (l : List Char) (c d : Char) (r : List Char)
    (hhead : l = c :: r) (hcw : wsChar c = false)
    (hlast : lastChar l = some d) (hdw : wsChar d = false) : jsTrim l = l := by
  unfold jsTrim
  rw [trimL_eq_self_of_head l c r hhead hcw]
  exact trimR_eq_self_of_last l d hlast hdw

theorem jsTrim_eq_nil_iff (l : List Char) :
    jsTrim l = [] ↔ ∀ c ∈ l, wsChar c = true := by
  unfold jsTrim
  rw [trimR_eq_nil_iff]
  constructor
  · intro hall c hc
    obtain ⟨a, ha, haw⟩ := trimL_decomp l
    rw [ha] at hc
    rcases List.mem_append.mp hc with hc | hc
    · exact haw c hc
    · exact hall c hc
  · intro hall c hc
    obtain ⟨a, ha, _⟩ := trimL_decomp l
    exact hall c (by rw [ha]; exact List.mem_append_right a hc)

/- Facts about splitting and joining lines. -/

theorem splitLinesA_cons (c : Char) (r : List Char) :
    splitLinesA (c :: r) =
      if c = '\n' then ([], splitLines r)
      else (c :: (splitLinesA r).1, (splitLinesA r).2) := by
  show (match splitLinesA r with
        | (h, t) => if c = '\n' then ([], h :: t) else (c :: h, t)) = _
  cases hA : splitLinesA r with
  | mk h t => by_cases hc : c = '\n' <;> simp [hc, splitLines, hA]

theorem splitLines_cons_nl (r : List Char) :
    splitLines ('\n' :: r) = [] :: splitLines r := by
  unfold splitLines
  rw [splitLinesA_cons]
  simp [splitLines]

theorem splitLines_cons_ne (c : Char) (r : List Char) (h : c ≠ '\n') :
    splitLines (c :: r) = (c :: (splitLinesA r).1) :: (splitLinesA r).2 := by
  unfold splitLines
  rw [splitLinesA_cons, if_neg h]

theorem mem_splitLines_no_nl (l : List Char) :
    ∀ x ∈ splitLines l, '\n' ∉ x := by
  induction l with
  | nil =>
    intro x hx
    have hx2 : x ∈ [([] : List Char)] := hx
    simp only [List.mem_singleton] at hx2
    subst hx2
    simp
  | cons c r ih =>
    by_cases hc : c = '\n'
    · subst hc
      rw [splitLines_cons_nl]
      intro x hx
      rcases List.mem_cons.mp hx with hx | hx
      · subst hx; simp
      · exact ih x hx
    · rw [splitLines_cons_ne c r hc]
      intro x hx
      rcases List.mem_cons.mp hx with hx | hx
      · subst hx
        intro hmem
        rcases List.mem_cons.mp hmem with hm | hm
        · exact hc hm.symm
        · exact ih (splitLinesA r).1 (List.mem_cons_self _ _) hm
      · exact ih x (List.mem_cons_of_mem _ hx)

theorem splitLinesA_no_nl (l : List Char) (h : '\n' ∉ l) :
    splitLinesA l = (l, []) := by
  induction l with
  | nil => rfl
  | cons c r ih =>
    rw [splitLinesA_cons,
      if_neg (fun hc => h (by subst hc; exact List.mem_cons_self _ _)),
      ih (fun hc => h (List.mem_cons_of_mem c hc))]

theorem splitLinesA_append_nl (l rest : List Char) (h : '\n' ∉ l) :
    splitLinesA (l ++ '\n' :: rest) = (l, splitLines rest) := by
  induction l with
  | nil =>
    rw [List.nil_append, splitLinesA_cons, if_pos rfl]
  | cons c r ih =>
    rw [List.cons_append, splitLinesA_cons,
      if_neg (fun hc => h (by subst hc; exact List.mem_cons_self _ _)),
      ih (fun hc => h (List.mem_cons_of_mem c hc))]

theorem splitLines_joinLines (ls : List (List Char)) (hne : ls ≠ [])
    (hnl : ∀ x ∈ ls, '\n' ∉ x) : splitLines (joinLines ls) = ls := by
  induction ls with
  | nil => exact absurd rfl hne
  | cons l t ih =>
    cases t with
    | nil =>
      show splitLines (joinLines [l]) = [l]
      unfold splitLines
      rw [show joinLines [l] = l from rfl,
        splitLinesA_no_nl l (hnl l (List.mem_cons_self l []))]
    | cons l2 t2 =>
      show splitLines (l ++ '\n' :: joinLines (l2 :: t2)) = l :: l2 :: t2
      unfold splitLines
      rw [splitLinesA_append_nl l (joinLines (l2 :: t2))
        (hnl l (List.mem_cons_self l (l2 :: t2)))]
      have := ih (List.cons_ne_nil l2 t2)
        (fun x hx => hnl x (List.mem_cons_of_mem l hx))
      simpa using this

/-- The last element of a list of lines. -/
def lastLine : List (List Char) → Option (List Char)
  | [] => none
  | [l] => some l
  | _ :: l :: ls => lastLine (l :: ls)

theorem lastLine_cons_ne (x : List Char) (ls : List (List Char)) (h : ls ≠ []) :
    lastLine (x :: ls) = lastLine ls := by
  cases ls with
  | nil => exact absurd rfl h
  | cons l t => rfl

theorem joinLines_head (o : List Char) (os : List (List Char)) (c : Char)
    (r : List Char) (h : o = c :: r) :
    ∃ u, joinLines (o :: os) = c :: u := by
  cases os with
  | nil => exact ⟨r, h ▸ rfl⟩
  | cons o2 t =>
    subst h
    exact ⟨r ++ '\n' :: joinLines (o2 :: t), rfl⟩

theorem joinLines_lastChar (os : List (List Char)) (o : List Char)
    (h : lastLine os = some o) (ho : o ≠ []) :
    lastChar (joinLines os) = lastChar o := by
  induction os with
  | nil => simp [lastLine] at h
  | cons l t ih =>
    cases t with
    | nil =>
      cases h
      rfl
    | cons l2 t2 =>
      rw [lastLine_cons_ne l (l2 :: t2) (List.cons_ne_nil l2 t2)] at h
      have hr := ih h
      show lastChar (l ++ '\n' :: joinLines (l2 :: t2)) = lastChar o
      rw [lastChar_append l ('\n' :: joinLines (l2 :: t2)) (List.cons_ne_nil _ _)]
      have hjoin_ne : joinLines (l2 :: t2) ≠ [] := by
        intro hc
        rw [hc] at hr
        obtain ⟨d, hd⟩ := lastChar_ne_none o ho
        rw [hd] at hr
        exact Option.noConfusion hr
      rw [lastChar_cons_ne '\n' (joinLines (l2 :: t2)) hjoin_ne]
      exact hr

/- Counting characters through trims. -/

theorem countChar_append (x : Char) (a b : List Char) :
    countChar x (a ++ b) = countChar x a + countChar x b := by
  induction a with
  | nil => simp [countChar]
  | cons c r ih =>
    show (if c = x then 1 else 0) + countChar x (r ++ b) = _
    rw [ih]
    show _ = (if c = x then 1 else 0) + countChar x r + countChar x b
    omega

theorem countChar_all_ws (x : Char) (b : List Char) (hx : wsChar x = false)
    (h : ∀ c ∈ b, wsChar c = true) : countChar x b = 0 := by
  induction b with
  | nil => rfl
  | cons c r ih =>
    have hcx : ¬c = x := by
      intro hcx
      have hcw := h c (List.mem_cons_self c r)
      rw [hcx, hx] at hcw
      exact Bool.noConfusion hcw
    show (if c = x then 1 else 0) + countChar x r = 0
    rw [if_neg hcx, ih (fun d hd => h d (List.mem_cons_of_mem c hd))]

theorem countChar_jsTrim (x : Char) (l : List Char) (hx : wsChar x = false) :
    countChar x (jsTrim l) = countChar x l := by
  obtain ⟨a, ha, haw⟩ := trimL_decomp l
  obtain ⟨b, hb, hbw⟩ := trimR_decomp (trimL l)
  conv_rhs => rw [ha]
  rw [countChar_append, countChar_all_ws x a hx haw, Nat.zero_add]
  conv_rhs => rw [hb]
  rw [countChar_append, countChar_all_ws x b hx hbw]
  rfl

/- The non-blank trimmed lines of a document are invariant under the
whole-document trim. -/

theorem filterNB_append (a b : List (List Char)) :
    filterNB (a ++ b) = filterNB a ++ filterNB b := by
  induction a with
  | nil => rfl
  | cons t ts ih =>
    show filterNB (t :: (ts ++ b)) = _
    by_cases ht : t = []
    · simp [filterNB, ht, ih]
    · simp [filterNB, ht, ih]

theorem jsTrim_cons_ws (c : Char) (l : List Char) (h : wsChar c = true) :
    jsTrim (c :: l) = jsTrim l := by
  unfold jsTrim
  rw [trimL_cons_of_ws c l h]

theorem trimL_all_ws (l : List Char) (h : ∀ c ∈ l, wsChar c = true) :
    trimL l = [] := by
  induction l with
  | nil => rfl
  | cons c r ih =>
    rw [trimL_cons_of_ws c r (h c (List.mem_cons_self c r))]
    exact ih (fun d hd => h d (List.mem_cons_of_mem c hd))


theorem trimL_append_of_ne_nil (l m : List Char) (h : trimL l ≠ []) :
    trimL (l ++ m) = trimL l ++ m := by
  induction l with
  | nil => exact absurd rfl h
  | cons c r ih =>
    by_cases hc : wsChar c = true
    · rw [List.cons_append, trimL_cons_of_ws c (r ++ m) hc,
        trimL_cons_of_ws c r hc]
      exact ih (by rwa [trimL_cons_of_ws c r hc] at h)
    · have hc2 : wsChar c = false := by simpa using hc
      rw [List.cons_append, trimL_cons_of_not_ws c (r ++ m) hc2,
        trimL_cons_of_not_ws c r hc2, List.cons_append]

theorem trimR_snoc_ws (u : List Char) (c : Char) (h : wsChar c = true) :
    trimR (u ++ [c]) = trimR u := by
  induction u with
  | nil => simp [trimR, h]
  | cons d u2 ih =>
    rw [List.cons_append, trimR_cons, ih, trimR_cons]

theorem jsTrim_nil : jsTrim [] = [] := rfl

theorem jsTrim_snoc_ws (l : List Char) (c : Char) (h : wsChar c = true) :
    jsTrim (l ++ [c]) = jsTrim l := by
  by_cases hall : trimL l = []
  · have h1 : ∀ x ∈ l, wsChar x = true := by
      intro x hx
      obtain ⟨a, ha, haw⟩ := trimL_decomp l
      rw [hall, List.append_nil] at ha
      exact haw x (ha ▸ hx)
    have h2 : trimL (l ++ [c]) = [] :=
      trimL_all_ws (l ++ [c]) (by
        intro x hx
        rcases List.mem_append.mp hx with hx | hx
        · exact h1 x hx
        · rw [List.mem_singleton.mp hx]; exact h)
    unfold jsTrim
    rw [h2, hall]
  · unfold jsTrim
    rw [trimL_append_of_ne_nil l [c] hall, trimR_snoc_ws (trimL l) c h]

/-- Replace the last element of a list of lines. -/
def updLast (f : List Char → List Char) : List (List Char) → List (List Char)
  | [] => []
  | [l] => [f l]
  | l :: l2 :: ls => l :: updLast f (l2 :: ls)

theorem updLast_cons_ne (f : List Char → List Char) (l : List Char)
    (ls : List (List Char)) (h : ls ≠ []) :
    updLast f (l :: ls) = l :: updLast f ls := by
  cases ls with
  | nil => exact absurd rfl h
  | cons l2 t => rfl

theorem map_updLast (f : List Char → List Char) (g : List Char → List Char)
    (hfg : ∀ x, g (f x) = g x) (ls : List (List Char)) :
    (updLast f ls).map g = ls.map g := by
  induction ls with
  | nil => rfl
  | cons l t ih =>
    cases t with
    | nil => simp [updLast, hfg]
    | cons l2 t2 =>
      rw [updLast_cons_ne f l (l2 :: t2) (List.cons_ne_nil l2 t2)]
      simpa using ih

theorem splitLinesA_snoc_nl (s : List Char) :
    splitLinesA (s ++ ['\n']) = ((splitLinesA s).1, (splitLinesA s).2 ++ [[]]) := by
  induction s with
  | nil => rfl
  | cons c s2 ih =>
    rw [List.cons_append, splitLinesA_cons, splitLinesA_cons]
    by_cases hc : c = '\n'
    · rw [if_pos hc, if_pos hc]
      unfold splitLines
      rw [ih]
      rfl
    · rw [if_neg hc, if_neg hc, ih]

theorem splitLinesA_snoc_ch (s : List Char) (c : Char) (h : c ≠ '\n') :
    splitLinesA (s ++ [c]) =
      (if (splitLinesA s).2 = [] then ((splitLinesA s).1 ++ [c], [])
       else ((splitLinesA s).1,
             updLast (fun l => l ++ [c]) (splitLinesA s).2)) := by
  induction s with
  | nil =>
    rw [List.nil_append, splitLinesA_cons, if_neg h]
    rfl
  | cons d s2 ih =>
    rw [List.cons_append, splitLinesA_cons, splitLinesA_cons]
    unfold splitLines
    by_cases hd : d = '\n'
    · rw [if_pos hd, if_pos hd, ih]
      by_cases h2 : (splitLinesA s2).2 = []
      · rw [if_pos h2, h2]
        show ([], [(splitLinesA s2).1 ++ [c]]) =
          if ((splitLinesA s2).1 :: ([] : List (List Char))) = [] then _ else
            (([] : List Char), updLast (fun l => l ++ [c]) [(splitLinesA s2).1])
        rw [if_neg (List.cons_ne_nil _ _)]
        rfl
      · rw [if_neg h2]
        show ([], (splitLinesA s2).1 :: updLast (fun l => l ++ [c]) (splitLinesA s2).2) =
          if ((splitLinesA s2).1 :: (splitLinesA s2).2) = [] then _ else
            (([] : List Char),
              updLast (fun l => l ++ [c]) ((splitLinesA s2).1 :: (splitLinesA s2).2))
        rw [if_neg (List.cons_ne_nil _ _), updLast_cons_ne _ _ _ h2]
    · rw [if_neg hd, if_neg hd, ih]
      by_cases h2 : (splitLinesA s2).2 = []
      · rw [if_pos h2, if_pos h2, List.cons_append]
      · rw [if_neg h2, if_neg h2]

theorem trimsNB_expand (s : List Char) :
    trimsNB s =
      filterNB (jsTrim (splitLinesA s).1 :: ((splitLinesA s).2).map jsTrim) := rfl

theorem filterNB_cons_nil (ts : List (List Char)) :
    filterNB ([] :: ts) = filterNB ts := by
  simp [filterNB]

theorem trimsNB_cons_nl (s : List Char) :
    trimsNB ('\n' :: s) = trimsNB s := by
  have hA : splitLinesA ('\n' :: s) = ([], splitLines s) := by
    rw [splitLinesA_cons]
    exact if_pos rfl
  rw [trimsNB_expand, hA]
  show filterNB (jsTrim [] :: (splitLines s).map jsTrim) = trimsNB s
  rw [jsTrim_nil, filterNB_cons_nil]
  rfl

theorem trimsNB_cons_ws (c : Char) (s : List Char) (hc : c ≠ '\n')
    (hw : wsChar c = true) : trimsNB (c :: s) = trimsNB s := by
  have hA : splitLinesA (c :: s) = (c :: (splitLinesA s).1, (splitLinesA s).2) := by
    rw [splitLinesA_cons, if_neg hc]
  rw [trimsNB_expand, hA]
  show filterNB (jsTrim (c :: (splitLinesA s).1) :: ((splitLinesA s).2).map jsTrim) = _
  rw [jsTrim_cons_ws c (splitLinesA s).1 hw]
  rfl

theorem trimsNB_snoc_nl (s : List Char) :
    trimsNB (s ++ ['\n']) = trimsNB s := by
  rw [trimsNB_expand, splitLinesA_snoc_nl]
  show filterNB (jsTrim (splitLinesA s).1 :: ((splitLinesA s).2 ++ [[]]).map jsTrim) = _
  rw [List.map_append]
  show filterNB ((jsTrim (splitLinesA s).1 :: ((splitLinesA s).2).map jsTrim) ++ [jsTrim []]) = _
  rw [filterNB_append, jsTrim_nil]
  show _ ++ filterNB [[]] = _
  have : filterNB [[]] = [] := by simp [filterNB]
  rw [this, List.append_nil]
  rfl

theorem trimsNB_snoc_ws (s : List Char) (c : Char) (hc : c ≠ '\n')
    (hw : wsChar c = true) : trimsNB (s ++ [c]) = trimsNB s := by
  rw [trimsNB_expand, splitLinesA_snoc_ch s c hc]
  by_cases h2 : (splitLinesA s).2 = []
  · rw [if_pos h2]
    show filterNB (jsTrim ((splitLinesA s).1 ++ [c]) :: ([] : List (List Char)).map jsTrim) = _
    rw [jsTrim_snoc_ws (splitLinesA s).1 c hw]
    rw [trimsNB_expand, h2]
  · rw [if_neg h2]
    show filterNB (jsTrim (splitLinesA s).1 ::
      (updLast (fun l => l ++ [c]) (splitLinesA s).2).map jsTrim) = _
    rw [map_updLast (fun l => l ++ [c]) jsTrim
      (fun x => jsTrim_snoc_ws x c hw) (splitLinesA s).2]
    rfl

theorem trimsNB_ws_front (a : List Char) :
    ∀ m, (∀ c ∈ a, wsChar c = true) → trimsNB (a ++ m) = trimsNB m := by
  induction a with
  | nil => intro m _; rfl
  | cons c a2 ih =>
    intro m h
    rw [List.cons_append]
    by_cases hc : c = '\n'
    · subst hc
      rw [trimsNB_cons_nl]
      exact ih m (fun d hd => h d (List.mem_cons_of_mem _ hd))
    · rw [trimsNB_cons_ws c (a2 ++ m) hc (h c (List.mem_cons_self c a2))]
      exact ih m (fun d hd => h d (List.mem_cons_of_mem c hd))

theorem trimsNB_ws_suffix (b : List Char) :
    ∀ m, (∀ c ∈ b, wsChar c = true) → trimsNB (m ++ b) = trimsNB m := by
  induction b with
  | nil => intro m _; rw [List.append_nil]
  | cons x b2 ih =>
    intro m h
    have hstep : trimsNB (m ++ [x]) = trimsNB m := by
      by_cases hx : x = '\n'
      · subst hx
        exact trimsNB_snoc_nl m
      · exact trimsNB_snoc_ws m x hx (h x (List.mem_cons_self x b2))
    have hassoc : m ++ x :: b2 = (m ++ [x]) ++ b2 := by
      rw [List.append_assoc]
      rfl
    rw [hassoc, ih (m ++ [x]) (fun d hd => h d (List.mem_cons_of_mem x hd)), hstep]

theorem trimsNB_jsTrim (s : List Char) : trimsNB (jsTrim s) = trimsNB s := by
  obtain ⟨a, ha, haw⟩ := trimL_decomp s
  obtain ⟨b, hb, hbw⟩ := trimR_decomp (trimL s)
  have hb2 : trimL s = jsTrim s ++ b := hb
  have hs : s = a ++ (jsTrim s ++ b) := by
    conv_lhs => rw [ha, hb2]
  conv_rhs => rw [hs]
  rw [trimsNB_ws_front a (jsTrim s ++ b) haw,
    trimsNB_ws_suffix b (jsTrim s) hbw]

/- The shape of the lines one loop iteration emits. -/

theorem kam_starts_bang : leadsWith bangL kamailioL = true := by decide

theorem kam_ne_nil : kamailioL ≠ [] := by decide

theorem ne_kam_of_not_bang (t : List Char) (hb : leadsWith bangL t = false) :
    t ≠ kamailioL := by
  intro h
  rw [h, kam_starts_bang] at hb
  exact Bool.noConfusion hb

theorem replicate_space_append_ne_kam (k : Nat) (t : List Char)
    (hb : leadsWith bangL t = false) :
    List.replicate k ' ' ++ t ≠ kamailioL := by
  cases k with
  | zero =>
    rw [List.replicate_zero, List.nil_append]
    exact ne_kam_of_not_bang t hb
  | succ n =>
    rw [List.replicate_succ, List.cons_append]
    intro h
    have hh := congrArg List.head? h
    rw [List.head?_cons] at hh
    have : (' ' : Char) = '#' := by
      have hk : kamailioL.head? = some '#' := rfl
      rw [hk] at hh
      exact Option.some.inj hh
    exact absurd this (by decide)

theorem mem_jsTrim_sub (l : List Char) (x : Char) (hx : x ∈ jsTrim l) : x ∈ l := by
  obtain ⟨a, ha, _⟩ := trimL_decomp l
  obtain ⟨b, hb, _⟩ := trimR_decomp (trimL l)
  have h1 : x ∈ trimL l := by
    have hb2 : trimL l = jsTrim l ++ b := hb
    rw [hb2]
    exact List.mem_append_left b hx
  rw [ha]
  exact List.mem_append_right a h1

theorem no_nl_jsTrim (l : List Char) (h : '\n' ∉ l) : '\n' ∉ jsTrim l :=
  fun hx => h (mem_jsTrim_sub l '\n' hx)

theorem lastLine_append (a b : List (List Char)) (hb : b ≠ []) :
    lastLine (a ++ b) = lastLine b := by
  induction a with
  | nil => rfl
  | cons x a2 ih =>
    rw [List.cons_append, lastLine_cons_ne x (a2 ++ b)
      (fun hc => hb (List.append_eq_nil.mp hc).2), ih]

theorem kamOk_append (a b : List (List Char)) (ha : kamOk a)
    (hla : lastLine a ≠ some kamailioL) (hb : kamOk b) : kamOk (a ++ b) := by
  induction a with
  | nil => exact hb
  | cons x a2 ih =>
    cases a2 with
    | nil =>
      have hx : x ≠ kamailioL := by
        intro hc
        exact hla (by rw [hc]; rfl)
      cases b with
      | nil => exact hx
      | cons y b2 => exact ⟨fun hc => absurd hc hx, hb⟩
    | cons x2 a3 =>
      have hstep : (x = kamailioL → x2 = []) ∧ kamOk (x2 :: a3) := ha
      have hla2 : lastLine (x2 :: a3) ≠ some kamailioL := by
        rwa [lastLine_cons_ne x (x2 :: a3) (List.cons_ne_nil x2 a3)] at hla
      have ihr := ih hstep.2 hla2
      show kamOk (x :: ((x2 :: a3) ++ b))
      rw [List.cons_append]
      exact ⟨hstep.1, ihr⟩

/-- The package of facts about the lines emitted for one trimmed line t:
they are non-empty, each is blank or an even number of spaces followed
by t, their non-blank trims are exactly the non-blank trims of [t],
they contain no newline when t does not, the KAMAILIO blank-line
discipline holds inside and at the end, and a blank input line emits
exactly one blank line. -/
def EmitPack (t : List Char) (os : List (List Char)) : Prop :=
  os ≠ [] ∧
  (∀ o ∈ os, o = [] ∨ ∃ k, o = List.replicate (2 * k) ' ' ++ t) ∧
  filterNB (os.map jsTrim) = filterNB [t] ∧
  ('\n' ∉ t → ∀ o ∈ os, '\n' ∉ o) ∧
  kamOk os ∧ lastLine os ≠ some kamailioL ∧
  (t = [] → os = [[]])

theorem emitPack_blank : EmitPack [] [[]] := by
  refine ⟨List.cons_ne_nil _ _, ?_, ?_, ?_, ?_, ?_, fun _ => rfl⟩
  · intro o ho
    left
    simpa using ho
  · rfl
  · intro _ o ho
    have : o = [] := by simpa using ho
    rw [this]
    simp
  · exact fun hc => kam_ne_nil hc.symm
  · intro hc
    have : ([] : List Char) = kamailioL := Option.some.inj hc
    exact kam_ne_nil this.symm

theorem emitPack_plain (t : List Char) (ht : jsTrim t = t) (htne : t ≠ [])
    (hK : t ≠ kamailioL) : EmitPack t [t] := by
  refine ⟨List.cons_ne_nil _ _, ?_, ?_, ?_, ?_, ?_, fun hc => absurd hc htne⟩
  · intro o ho
    right
    exact ⟨0, by simpa using (List.mem_singleton.mp ho)⟩
  · show filterNB [jsTrim t] = filterNB [t]
    rw [ht]
  · intro hnl o ho
    rw [List.mem_singleton.mp ho]
    exact hnl
  · exact hK
  · intro hc
    exact hK (Option.some.inj hc)

theorem emitPack_t_blank (t : List Char) (ht : jsTrim t = t) (htne : t ≠ [])
    : EmitPack t [t, []] := by
  refine ⟨List.cons_ne_nil _ _, ?_, ?_, ?_, ?_, ?_, fun hc => absurd hc htne⟩
  · intro o ho
    rcases List.mem_cons.mp ho with ho | ho
    · right
      exact ⟨0, by simpa using ho⟩
    · left
      simpa using ho
  · show filterNB [jsTrim t, jsTrim []] = filterNB [t]
    rw [ht, jsTrim_nil]
    show (if t = [] then _ else t :: filterNB [([] : List Char)]) = _
    rw [if_neg htne]
    show t :: filterNB [([] : List Char)] = if t = [] then _ else t :: filterNB []
    rw [if_neg htne]
    rfl
  · intro hnl o ho
    rcases List.mem_cons.mp ho with ho | ho
    · rw [ho]; exact hnl
    · have : o = [] := by simpa using ho
      rw [this]; simp
  · exact ⟨fun _ => rfl, fun hc => kam_ne_nil hc.symm⟩
  · intro hc
    have : ([] : List Char) = kamailioL := Option.some.inj hc
    exact kam_ne_nil this.symm

theorem emitPack_blank_t (t : List Char) (ht : jsTrim t = t) (htne : t ≠ [])
    (hK : t ≠ kamailioL) : EmitPack t [[], t] := by
  refine ⟨List.cons_ne_nil _ _, ?_, ?_, ?_, ?_, ?_, fun hc => absurd hc htne⟩
  · intro o ho
    rcases List.mem_cons.mp ho with ho | ho
    · left; exact ho
    · right
      exact ⟨0, by simpa using ho⟩
  · show filterNB [jsTrim [], jsTrim t] = filterNB [t]
    rw [ht, jsTrim_nil]
    show filterNB [t] = filterNB [t]
    rfl
  · intro hnl o ho
    rcases List.mem_cons.mp ho with ho | ho
    · rw [ho]; simp
    · rw [List.mem_singleton.mp ho]; exact hnl
  · exact ⟨fun hc => absurd hc.symm kam_ne_nil, hK⟩
  · intro hc
    exact hK (Option.some.inj hc)

theorem emitPack_blank_t_blank (t : List Char) (ht : jsTrim t = t)
    (htne : t ≠ []) : EmitPack t [[], t, []] := by
  refine ⟨List.cons_ne_nil _ _, ?_, ?_, ?_, ?_, ?_, fun hc => absurd hc htne⟩
  · intro o ho
    rcases List.mem_cons.mp ho with ho | ho
    · left; exact ho
    · rcases List.mem_cons.mp ho with ho | ho
      · right; exact ⟨0, by simpa using ho⟩
      · left; simpa using ho
  · show filterNB [jsTrim [], jsTrim t, jsTrim []] = filterNB [t]
    rw [ht, jsTrim_nil]
    show filterNB [t, ([] : List Char)] = filterNB [t]
    show (if t = [] then _ else t :: filterNB [([] : List Char)]) = _
    rw [if_neg htne]
    show t :: filterNB [([] : List Char)] = if t = [] then _ else t :: filterNB []
    rw [if_neg htne]
    rfl
  · intro hnl o ho
    rcases List.mem_cons.mp ho with ho | ho
    · rw [ho]; simp
    · rcases List.mem_cons.mp ho with ho | ho
      · rw [ho]; exact hnl
      · have : o = [] := by simpa using ho
        rw [this]; simp
  · exact ⟨fun hc => absurd hc.symm kam_ne_nil, fun _ => rfl,
      fun hc => kam_ne_nil hc.symm⟩
  · intro hc
    have : ([] : List Char) = kamailioL := Option.some.inj hc
    exact kam_ne_nil this.symm

theorem emitPack_ind (t : List Char) (k : Nat) (ht : jsTrim t = t)
    (htne : t ≠ []) (hb : leadsWith bangL t = false) :
    EmitPack t [List.replicate (2 * k) ' ' ++ t] := by
  have hKo : List.replicate (2 * k) ' ' ++ t ≠ kamailioL :=
    replicate_space_append_ne_kam (2 * k) t hb
  have hone : List.replicate (2 * k) ' ' ++ t ≠ [] := by
    intro hc
    exact htne (List.append_eq_nil.mp hc).2
  refine ⟨List.cons_ne_nil _ _, ?_, ?_, ?_, ?_, ?_, fun hc => absurd hc htne⟩
  · intro o ho
    right
    exact ⟨k, List.mem_singleton.mp ho⟩
  · show filterNB [jsTrim (List.replicate (2 * k) ' ' ++ t)] = filterNB [t]
    rw [jsTrim_replicate_space, ht]
  · intro hnl o ho
    rw [List.mem_singleton.mp ho]
    intro hmem
    rcases List.mem_append.mp hmem with hm | hm
    · have := List.eq_of_mem_replicate hm
      exact absurd this (by decide)
    · exact hnl hm
  · exact hKo
  · intro hc
    exact hKo (Option.some.inj hc)

theorem emitPack_blank_ind (t : List Char) (k : Nat) (ht : jsTrim t = t)
    (htne : t ≠ []) (hb : leadsWith bangL t = false) :
    EmitPack t [[], List.replicate (2 * k) ' ' ++ t] := by
  have hKo : List.replicate (2 * k) ' ' ++ t ≠ kamailioL :=
    replicate_space_append_ne_kam (2 * k) t hb
  refine ⟨List.cons_ne_nil _ _, ?_, ?_, ?_, ?_, ?_, fun hc => absurd hc htne⟩
  · intro o ho
    rcases List.mem_cons.mp ho with ho | ho
    · left; exact ho
    · right
      exact ⟨k, by simpa using ho⟩
  · show filterNB [jsTrim [], jsTrim (List.replicate (2 * k) ' ' ++ t)] = filterNB [t]
    rw [jsTrim_nil, jsTrim_replicate_space, ht]
    rfl
  · intro hnl o ho
    rcases List.mem_cons.mp ho with ho | ho
    · rw [ho]; simp
    · rw [List.mem_singleton.mp ho]
      intro hmem
      rcases List.mem_append.mp hmem with hm | hm
      · have := List.eq_of_mem_replicate hm
        exact absurd this (by decide)
      · exact hnl hm
  · exact ⟨fun hc => absurd hc.symm kam_ne_nil, hKo⟩
  · intro hc
    exact hKo (Option.some.inj hc)

theorem indentRepeat_some (n : Int) (v : List Char) (h : indentRepeat n = some v) :
    0 ≤ n ∧ v = List.replicate (2 * n.toNat) ' ' := by
  unfold indentRepeat at h
  by_cases hn : n < 0
  · rw [if_pos hn] at h
    exact Option.noConfusion h
  · rw [if_neg hn] at h
    exact ⟨by omega, (Option.some.inj h).symm⟩

theorem bind_ind_some (n : Int) (f : List Char → FmtState) (st2 : FmtState)
    (h : (indentRepeat n).bind (fun ind => some (f ind)) = some st2) :
    0 ≤ n ∧ st2 = f (List.replicate (2 * n.toNat) ' ') := by
  cases hi : indentRepeat n with
  | none =>
    rw [hi] at h
    exact Option.noConfusion h
  | some v =>
    rw [hi] at h
    obtain ⟨hn, hv⟩ := indentRepeat_some n v hi
    change some (f v) = some st2 at h
    refine ⟨hn, ?_⟩
    rw [← hv]
    exact (Option.some.inj h).symm

theorem processTrimmed_emit (st st2 : FmtState) (t : List Char)
    (ht : jsTrim t = t) (hp : processTrimmed st t = some st2) :
    ∃ os, st2.formattedLines = st.formattedLines ++ os ∧ EmitPack t os := by
  rw [processTrimmed] at hp
  by_cases h1 : t = []
  · rw [if_pos h1] at hp
    have hst := Option.some.inj hp
    subst hst
    refine ⟨[[]], rfl, ?_⟩
    rw [h1]
    exact emitPack_blank
  · rw [if_neg h1] at hp
    by_cases h2 : leadsWith bangL t = true
    · rw [if_pos h2] at hp
      by_cases h3 : t = kamailioL
      · rw [if_pos h3] at hp
        have hst := Option.some.inj hp
        subst hst
        exact ⟨[t, []], rfl, emitPack_t_blank t ht h1⟩
      · rw [if_neg h3] at hp
        by_cases h4 : leadsWith defineL t = true
        · rw [if_pos h4] at hp
          have hst := Option.some.inj hp
          subst hst
          exact ⟨[t], rfl, emitPack_plain t ht h1 h3⟩
        · rw [if_neg h4] at hp
          by_cases h5 : leadsWith ifdefL t = true ∨ leadsWith ifndefL t = true
          · rw [if_pos h5] at hp
            have hst := Option.some.inj hp
            subst hst
            exact ⟨[[], t], rfl, emitPack_blank_t t ht h1 h3⟩
          · rw [if_neg h5] at hp
            by_cases h6 : t = elseDirL
            · rw [if_pos h6] at hp
              have hst := Option.some.inj hp
              subst hst
              exact ⟨[t], rfl, emitPack_plain t ht h1 h3⟩
            · rw [if_neg h6] at hp
              by_cases h7 : t = endifL
              · rw [if_pos h7] at hp
                have hst := Option.some.inj hp
                subst hst
                exact ⟨[t, []], rfl, emitPack_t_blank t ht h1⟩
              · rw [if_neg h7] at hp
                have hst := Option.some.inj hp
                subst hst
                exact ⟨[t], rfl, emitPack_plain t ht h1 h3⟩
    · have hb : leadsWith bangL t = false := by simpa using h2
      have hK : t ≠ kamailioL := ne_kam_of_not_bang t hb
      rw [if_neg h2] at hp
      by_cases h8 : leadsWith bannerL t = true
      · rw [if_pos h8] at hp
        have hst := Option.some.inj hp
        subst hst
        exact ⟨[[], t, []], rfl, emitPack_blank_t_blank t ht h1⟩
      · rw [if_neg h8] at hp
        by_cases h9 : leadsWith hashL t = true
        · rw [if_pos h9] at hp
          by_cases h10 : st.inPreprocessorBlock = true ∨ 0 < st.indentLevel
          · rw [if_pos h10] at hp
            obtain ⟨hn, hst⟩ := bind_ind_some st.indentLevel
              (fun ind => pushQ st [ind ++ t]) st2 hp
            subst hst
            exact ⟨[List.replicate (2 * st.indentLevel.toNat) ' ' ++ t], rfl,
              emitPack_ind t st.indentLevel.toNat ht h1 hb⟩
          · rw [if_neg h10] at hp
            have hst := Option.some.inj hp
            subst hst
            exact ⟨[t], rfl, emitPack_plain t ht h1 hK⟩
        · rw [if_neg h9] at hp
          by_cases h11 : leadsWith listenL t = true
          · rw [if_pos h11] at hp
            have hst := Option.some.inj hp
            subst hst
            exact ⟨[t], rfl, emitPack_plain t ht h1 hK⟩
          · rw [if_neg h11] at hp
            by_cases h12 : hasChar '\x7b' t = true
            · rw [if_pos h12] at hp
              obtain ⟨hn, hst⟩ := bind_ind_some st.indentLevel
                (fun ind => { pushQ st [ind ++ t] with
                  indentLevel := st.indentLevel + 1 }) st2 hp
              subst hst
              exact ⟨[List.replicate (2 * st.indentLevel.toNat) ' ' ++ t], rfl,
                emitPack_ind t st.indentLevel.toNat ht h1 hb⟩
            · rw [if_neg h12] at hp
              by_cases h13 : hasChar '\x7d' t = true
              · rw [if_pos h13] at hp
                obtain ⟨hn, hst⟩ := bind_ind_some (max 0 (st.indentLevel - 1))
                  (fun ind => { pushQ st [ind ++ t] with
                    indentLevel := max 0 (st.indentLevel - 1) }) st2 hp
                subst hst
                exact ⟨[List.replicate (2 * (max 0 (st.indentLevel - 1)).toNat) ' ' ++ t],
                  rfl, emitPack_ind t (max 0 (st.indentLevel - 1)).toNat ht h1 hb⟩
              · rw [if_neg h13] at hp
                by_cases h14 : leadsWith loadmoduleL t = true
                · rw [if_pos h14] at hp
                  obtain ⟨hn, hst⟩ := bind_ind_some st.indentLevel
                    (fun ind => pushQ st [ind ++ t]) st2 hp
                  subst hst
                  exact ⟨[List.replicate (2 * st.indentLevel.toNat) ' ' ++ t], rfl,
                    emitPack_ind t st.indentLevel.toNat ht h1 hb⟩
                · rw [if_neg h14] at hp
                  by_cases h15 : leadsWith modparamL t = true
                  · rw [if_pos h15] at hp
                    obtain ⟨hn, hst⟩ := bind_ind_some st.indentLevel
                      (fun ind => pushQ st [ind ++ t]) st2 hp
                    subst hst
                    exact ⟨[List.replicate (2 * st.indentLevel.toNat) ' ' ++ t], rfl,
                      emitPack_ind t st.indentLevel.toNat ht h1 hb⟩
                  · rw [if_neg h15] at hp
                    by_cases h16 : (routeDeclsL.any (fun p => leadsWith p t)) = true
                    · rw [if_pos h16] at hp
                      obtain ⟨hn, hst⟩ := bind_ind_some st.indentLevel
                        (fun ind => pushQ st [[], ind ++ t]) st2 hp
                      subst hst
                      exact ⟨[[], List.replicate (2 * st.indentLevel.toNat) ' ' ++ t],
                        rfl, emitPack_blank_ind t st.indentLevel.toNat ht h1 hb⟩
                    · rw [if_neg h16] at hp
                      by_cases h17 : hasChar '=' t = true ∧ hasSeq eqeqL t = false
                      · rw [if_pos h17] at hp
                        obtain ⟨hn, hst⟩ := bind_ind_some st.indentLevel
                          (fun ind => pushQ st [ind ++ t]) st2 hp
                        subst hst
                        exact ⟨[List.replicate (2 * st.indentLevel.toNat) ' ' ++ t],
                          rfl, emitPack_ind t st.indentLevel.toNat ht h1 hb⟩
                      · rw [if_neg h17] at hp
                        by_cases h18 : (sipFnsL.any (fun p => leadsWith p t)) = true
                        · rw [if_pos h18] at hp
                          obtain ⟨hn, hst⟩ := bind_ind_some st.indentLevel
                            (fun ind => pushQ st [ind ++ t]) st2 hp
                          subst hst
                          exact ⟨[List.replicate (2 * st.indentLevel.toNat) ' ' ++ t],
                            rfl, emitPack_ind t st.indentLevel.toNat ht h1 hb⟩
                        · rw [if_neg h18] at hp
                          by_cases h19 : leadsWith ifL t = true ∨ leadsWith elseKwL t = true
                          · rw [if_pos h19] at hp
                            obtain ⟨hn, hst⟩ := bind_ind_some st.indentLevel
                              (fun ind => { pushQ st [ind ++ t] with
                                indentLevel := if lastChar t = some '\x7b' then
                                  st.indentLevel else st.indentLevel + 1 }) st2 hp
                            subst hst
                            exact ⟨[List.replicate (2 * st.indentLevel.toNat) ' ' ++ t],
                              rfl, emitPack_ind t st.indentLevel.toNat ht h1 hb⟩
                          · rw [if_neg h19] at hp
                            obtain ⟨hn, hst⟩ := bind_ind_some st.indentLevel
                              (fun ind => pushQ st [ind ++ t]) st2 hp
                            subst hst
                            exact ⟨[List.replicate (2 * st.indentLevel.toNat) ' ' ++ t],
                              rfl, emitPack_ind t st.indentLevel.toNat ht h1 hb⟩

theorem runFormat_shape : ∀ (ls : List (List Char)) (st st2 : FmtState),
    runFormat st ls = some st2 →
    ∃ os, st2.formattedLines = st.formattedLines ++ os ∧
      (∀ o ∈ os, o = [] ∨ ∃ k t, t ∈ ls.map jsTrim ∧ t ≠ [] ∧ jsTrim t = t ∧
        o = List.replicate (2 * k) ' ' ++ t) ∧
      filterNB (os.map jsTrim) = filterNB (ls.map jsTrim) ∧
      ((∀ l ∈ ls, '\n' ∉ l) → ∀ o ∈ os, '\n' ∉ o) ∧
      kamOk os ∧ lastLine os ≠ some kamailioL ∧
      (ls ≠ [] → os ≠ []) := by
  intro ls
  induction ls with
  | nil =>
    intro st st2 hp
    have hst := Option.some.inj hp
    subst hst
    refine ⟨[], (List.append_nil _).symm, ?_, rfl, ?_, trivial, ?_, ?_⟩
    · intro o ho
      exact absurd ho (List.not_mem_nil o)
    · intro _ o ho
      exact absurd ho (List.not_mem_nil o)
    · intro hc
      exact Option.noConfusion hc
    · intro hc
      exact absurd rfl hc
  | cons l rest ih =>
    intro st st2 hp
    change (processTrimmed st (jsTrim l)).bind (fun st1 => runFormat st1 rest) = some st2 at hp
    cases hq : processTrimmed st (jsTrim l) with
    | none =>
      rw [hq] at hp
      exact Option.noConfusion hp
    | some st1 =>
      rw [hq] at hp
      change runFormat st1 rest = some st2 at hp
      obtain ⟨os1, hL1, hne1, hsh1, hfil1, hnl1, hk1, hll1, hbl1⟩ :=
        processTrimmed_emit st st1 (jsTrim l) (jsTrim_idem l) hq
      obtain ⟨os2, hL2, hsh2, hfil2, hnl2, hk2, hll2, hne2⟩ := ih st1 st2 hp
      refine ⟨os1 ++ os2, ?_, ?_, ?_, ?_, ?_, ?_, ?_⟩
      · rw [hL2, hL1, List.append_assoc]
      · intro o ho
        rcases List.mem_append.mp ho with ho | ho
        · by_cases htl : jsTrim l = []
          · left
            have hos1 : os1 = [[]] := hbl1 htl
            rw [hos1] at ho
            simpa using ho
          · rcases hsh1 o ho with ho2 | ⟨k, hko⟩
            · left; exact ho2
            · right
              exact ⟨k, jsTrim l, List.mem_cons_self _ _, htl, jsTrim_idem l, hko⟩
        · rcases hsh2 o ho with ho2 | ⟨k, t, hmem, htne, htt, hko⟩
          · left; exact ho2
          · right
            exact ⟨k, t, List.mem_cons_of_mem _ hmem, htne, htt, hko⟩
      · rw [List.map_append, filterNB_append, hfil1, hfil2]
        show _ = filterNB (jsTrim l :: rest.map jsTrim)
        rw [show (jsTrim l :: rest.map jsTrim) = [jsTrim l] ++ rest.map jsTrim from rfl,
          filterNB_append]
      · intro hnl o ho
        rcases List.mem_append.mp ho with ho | ho
        · exact hnl1 (no_nl_jsTrim l (hnl l (List.mem_cons_self l rest))) o ho
        · exact hnl2 (fun x hx => hnl x (List.mem_cons_of_mem l hx)) o ho
      · exact kamOk_append os1 os2 hk1 hll1 hk2
      · by_cases hos2 : os2 = []
        · rw [hos2, List.append_nil]
          exact hll1
        · rw [lastLine_append os1 os2 hos2]
          exact hll2
      · intro _ hc
        exact hne1 (List.append_eq_nil.mp hc).1

theorem mem_filterNB (ts : List (List Char)) (t : List Char) (h : t ∈ ts)
    (hne : t ≠ []) : t ∈ filterNB ts := by
  induction ts with
  | nil => exact absurd h (List.not_mem_nil t)
  | cons x r ih =>
    show t ∈ (if x = [] then filterNB r else x :: filterNB r)
    rcases List.mem_cons.mp h with h | h
    · rw [if_neg (h ▸ hne)]
      exact h ▸ List.mem_cons_self t (filterNB r)
    · by_cases hx : x = []
      · rw [if_pos hx]
        exact ih h
      · rw [if_neg hx]
        exact List.mem_cons_of_mem x (ih h)

theorem filterNB_subset (ts : List (List Char)) (t : List Char)
    (h : t ∈ filterNB ts) : t ∈ ts := by
  induction ts with
  | nil => exact absurd h (List.not_mem_nil t)
  | cons x r ih =>
    have h2 : t ∈ (if x = [] then filterNB r else x :: filterNB r) := h
    by_cases hx : x = []
    · rw [if_pos hx] at h2
      exact List.mem_cons_of_mem x (ih h2)
    · rw [if_neg hx] at h2
      rcases List.mem_cons.mp h2 with h3 | h3
      · exact h3 ▸ List.mem_cons_self x r
      · exact List.mem_cons_of_mem x (ih h3)

/-- Claim C10: every line of the formatted content is either blank or a
number of repetitions of two spaces followed by the trimmed text of
some input line, and the trimmed texts of the non-blank output lines
are exactly, in order, the trimmed texts of the non-blank input lines:
the formatter only changes whitespace and inserts blank lines. -/
theorem format_only_reindents_lines (s : String) (cfg : KamailioConfig)
    (h : formatKamailioConfig s = some cfg) :
    (∀ o ∈ splitLines (cfg.formattedContent.data),
       o = [] ∨ ∃ k t, t ∈ (splitLines (s.data)).map jsTrim ∧ t ≠ [] ∧
         jsTrim t = t ∧ o = List.replicate (2 * k) ' ' ++ t) ∧
    filterNB ((splitLines (cfg.formattedContent.data)).map jsTrim) =
      filterNB ((splitLines (s.data)).map jsTrim) := by
  unfold formatKamailioConfig at h
  cases hr : runFormat initState (splitLines (jsTrim (s.data))) with
  | none =>
    rw [hr] at h
    exact Option.noConfusion h
  | some st =>
    rw [hr] at h
    simp only [Option.map_some'] at h
    injection h with h
    subst h
    obtain ⟨os, hL, hsh, hfil, hnl, _hk, _hll, hne⟩ :=
      runFormat_shape (splitLines (jsTrim (s.data))) initState st hr
    have hLines : st.formattedLines = os := by
      rw [show initState.formattedLines = [] from rfl, List.nil_append] at hL
      exact hL
    have hos_nl : ∀ o ∈ os, '\n' ∉ o := hnl (mem_splitLines_no_nl (jsTrim (s.data)))
    have hos_ne : os ≠ [] := hne (List.cons_ne_nil _ _)
    have hsplit : splitLines (((⟨s, String.mk (joinLines st.formattedLines)⟩ :
        KamailioConfig).formattedContent).data) = os := by
      show splitLines (joinLines st.formattedLines) = os
      rw [hLines]
      exact splitLines_joinLines os hos_ne hos_nl
    rw [hsplit]
    constructor
    · intro o ho
      rcases hsh o ho with ho2 | ⟨k, t, hmem, htne, htt, hko⟩
      · left
        exact ho2
      · right
        refine ⟨k, t, ?_, htne, htt, hko⟩
        have h1 : t ∈ filterNB ((splitLines (jsTrim (s.data))).map jsTrim) :=
          mem_filterNB _ t hmem htne
        have h2 : t ∈ trimsNB (s.data) := by
          rw [← trimsNB_jsTrim (s.data)]
          exact h1
        exact filterNB_subset _ t h2
    · rw [hfil]
      exact trimsNB_jsTrim (s.data)

/-- Witness for claim C10 at a concrete input. -/
theorem format_only_reindents_lines_witness :
    (∀ o ∈ splitLines (("a" : String).data),
       o = [] ∨ ∃ k t, t ∈ (splitLines (("a" : String).data)).map jsTrim ∧ t ≠ [] ∧
         jsTrim t = t ∧ o = List.replicate (2 * k) ' ' ++ t) ∧
    filterNB ((splitLines (("a" : String).data)).map jsTrim) =
      filterNB ((splitLines (("a" : String).data)).map jsTrim) :=
  format_only_reindents_lines "a" ⟨"a", "a"⟩ (by decide)

theorem kamOk_get : ∀ ls : List (List Char), kamOk ls →
    ∀ i, ls.get? i = some kamailioL → ls.get? (i + 1) = some [] := by
  intro ls
  induction ls with
  | nil =>
    intro _ i hi
    exact Option.noConfusion hi
  | cons x t ih =>
    intro hk i hi
    cases t with
    | nil =>
      have hx : x ≠ kamailioL := hk
      cases i with
      | zero => exact absurd (Option.some.inj hi) hx
      | succ j =>
        rw [List.get?_cons_succ] at hi
        exact Option.noConfusion hi
    | cons y rest =>
      obtain ⟨h1, h2⟩ := hk
      cases i with
      | zero =>
        have hy := h1 (Option.some.inj hi)
        show (y :: rest).get? 0 = some []
        rw [List.get?_cons_zero, hy]
      | succ j =>
        rw [List.get?_cons_succ] at hi
        show (y :: rest).get? (j + 1) = some []
        exact ih h2 j hi

/-- Claim C6, amended: every output line equal to the KAMAILIO
directive is immediately followed by a blank line. (The original claim
asked for exactly one blank line; pre-existing blank runs are kept, so
more may follow.) -/
theorem kamailio_directive_followed_by_blank (s : String) (cfg : KamailioConfig)
    (h : formatKamailioConfig s = some cfg) (i : Nat)
    (hi : (splitLines (cfg.formattedContent.data)).get? i = some kamailioL) :
    (splitLines (cfg.formattedContent.data)).get? (i + 1) = some [] := by
  unfold formatKamailioConfig at h
  cases hr : runFormat initState (splitLines (jsTrim (s.data))) with
  | none =>
    rw [hr] at h
    exact Option.noConfusion h
  | some st =>
    rw [hr] at h
    simp only [Option.map_some'] at h
    injection h with h
    subst h
    obtain ⟨os, hL, _hsh, _hfil, hnl, hk, _hll, hne⟩ :=
      runFormat_shape (splitLines (jsTrim (s.data))) initState st hr
    have hLines : st.formattedLines = os := by
      rw [show initState.formattedLines = [] from rfl, List.nil_append] at hL
      exact hL
    have hos_nl : ∀ o ∈ os, '\n' ∉ o := hnl (mem_splitLines_no_nl (jsTrim (s.data)))
    have hos_ne : os ≠ [] := hne (List.cons_ne_nil _ _)
    have hsplit : splitLines (((⟨s, String.mk (joinLines st.formattedLines)⟩ :
        KamailioConfig).formattedContent).data) = os := by
      show splitLines (joinLines st.formattedLines) = os
      rw [hLines]
      exact splitLines_joinLines os hos_ne hos_nl
    rw [hsplit] at hi ⊢
    exact kamOk_get os hk i hi

/-- Witness for the amended claim C6 at a concrete input. -/
theorem kamailio_directive_followed_by_blank_witness :
    (splitLines (("#!KAMAILIO\n" : String).data)).get? (0 + 1) = some [] :=
  kamailio_directive_followed_by_blank "#!KAMAILIO"
    ⟨"#!KAMAILIO", "#!KAMAILIO\n"⟩ (by decide) 0 (by decide)

theorem indentRepeat_of_nonneg (n : Int) (h : 0 ≤ n) :
    indentRepeat n = some (List.replicate (2 * n.toNat) ' ') := by
  unfold indentRepeat
  rw [if_neg (by omega)]


/-- One loop iteration, characterized for states with the preprocessor
flag clear and non-negative indentation, on lines outside the KAMAILIO,
ifdef/ifndef, endif and banner branches. -/
theorem processTrimmed_class (d : Int) (acc : List (List Char)) (t : List Char)
    (hd : 0 ≤ d)
    (hK : t ≠ kamailioL) (hifdef : leadsWith ifdefL t = false)
    (hifndef : leadsWith ifndefL t = false) (hendif : t ≠ endifL)
    (hbanner : leadsWith bannerL t = false) :
    processTrimmed ⟨d, false, acc⟩ t =
      some ⟨nextD d t, false, acc ++ emitMany d t⟩ := by
  rw [processTrimmed, emitMany, nextD]
  dsimp only
  by_cases h1 : t = []
  · simp only [if_pos h1]
    rfl
  · simp only [if_neg h1]
    by_cases h2 : leadsWith bangL t = true
    · simp only [if_pos h2, if_neg hK]
      by_cases h4 : leadsWith defineL t = true
      · simp only [if_pos h4]
        rfl
      · simp only [if_neg h4]
        have h5 : ¬(leadsWith ifdefL t = true ∨ leadsWith ifndefL t = true) := by
          rw [hifdef, hifndef]
          simp
        simp only [if_neg h5]
        by_cases h6 : t = elseDirL
        · simp only [if_pos h6]
          have hde : d - 1 + 1 = d := by omega
          rw [hde]
          rfl
        · simp only [if_neg h6, if_neg hendif]
          rfl
    · have hbannerN : ¬leadsWith bannerL t = true := by
        rw [hbanner]
        exact Bool.false_ne_true
      simp only [if_neg h2, if_neg hbannerN]
      by_cases h9 : leadsWith hashL t = true
      · simp only [if_pos h9]
        by_cases h10 : 0 < d
        · have hcond : (false = true ∨ 0 < d) := Or.inr h10
          simp only [if_pos hcond, if_pos h10]
          rw [indentRepeat_of_nonneg d hd]
          rfl
        · have hcond : ¬(false = true ∨ 0 < d) := by
            intro hc
            rcases hc with hc | hc
            · exact Bool.noConfusion hc
            · exact h10 hc
          simp only [if_neg hcond, if_neg h10]
          rfl
      · simp only [if_neg h9]
        by_cases h11 : leadsWith listenL t = true
        · simp only [if_pos h11]
          rfl
        · simp only [if_neg h11]
          by_cases h12 : hasChar '\x7b' t = true
          · simp only [if_pos h12]
            rw [indentRepeat_of_nonneg d hd]
            rfl
          · simp only [if_neg h12]
            by_cases h13 : hasChar '\x7d' t = true
            · simp only [if_pos h13]
              rw [indentRepeat_of_nonneg (max 0 (d - 1)) (le_max_left 0 (d - 1))]
              rfl
            · simp only [if_neg h13]
              by_cases h14 : leadsWith loadmoduleL t = true
              · simp only [if_pos h14]
                rw [indentRepeat_of_nonneg d hd]
                rfl
              · simp only [if_neg h14]
                by_cases h15 : leadsWith modparamL t = true
                · simp only [if_pos h15]
                  rw [indentRepeat_of_nonneg d hd]
                  rfl
                · simp only [if_neg h15]
                  by_cases h16 : (routeDeclsL.any (fun p => leadsWith p t)) = true
                  · simp only [if_pos h16]
                    rw [indentRepeat_of_nonneg d hd]
                    rfl
                  · simp only [if_neg h16]
                    by_cases h17 : hasChar '=' t = true ∧ hasSeq eqeqL t = false
                    · simp only [if_pos h17]
                      rw [indentRepeat_of_nonneg d hd]
                      rfl
                    · simp only [if_neg h17]
                      by_cases h18 : (sipFnsL.any (fun p => leadsWith p t)) = true
                      · simp only [if_pos h18]
                        rw [indentRepeat_of_nonneg d hd]
                        rfl
                      · simp only [if_neg h18]
                        by_cases h19 : leadsWith ifL t = true ∨ leadsWith elseKwL t = true
                        · simp only [if_pos h19]
                          rw [indentRepeat_of_nonneg d hd]
                          rfl
                        · simp only [if_neg h19]
                          rw [indentRepeat_of_nonneg d hd]
                          rfl

theorem nextD_nonneg (d : Int) (t : List Char) (hd : 0 ≤ d) : 0 ≤ nextD d t := by
  rw [nextD]
  omega

/-- The trimmed-line conditions shared by the restricted classes: the
line is outside the KAMAILIO, ifdef/ifndef, endif and banner
branches. -/
def ClassLine (t : List Char) : Prop :=
  t ≠ kamailioL ∧ leadsWith ifdefL t = false ∧ leadsWith ifndefL t = false ∧
  t ≠ endifL ∧ leadsWith bannerL t = false

/-- Additionally outside the route-declaration branch (no blank-line
insertion at all). -/
def Class2Line (t : List Char) : Prop :=
  ClassLine t ∧ (routeDeclsL.any (fun p => leadsWith p t)) = false

theorem runFormat_class (ls : List (List Char)) : ∀ (d : Int) (acc : List (List Char)),
    0 ≤ d → (∀ l ∈ ls, ClassLine (jsTrim l)) →
    runFormat ⟨d, false, acc⟩ ls =
      some ⟨depthAfterRun d ls, false, acc ++ emitAll d ls⟩ := by
  induction ls with
  | nil =>
    intro d acc _ _
    show some _ = _
    rw [show emitAll d [] = [] from rfl, List.append_nil]
    rfl
  | cons l rest ih =>
    intro d acc hd hcls
    obtain ⟨hK, hifdef, hifndef, hendif, hbanner⟩ := hcls l (List.mem_cons_self l rest)
    show (processTrimmed ⟨d, false, acc⟩ (jsTrim l)).bind
      (fun st2 => runFormat st2 rest) = _
    rw [processTrimmed_class d acc (jsTrim l) hd hK hifdef hifndef hendif hbanner]
    change runFormat ⟨nextD d (jsTrim l), false, acc ++ emitMany d (jsTrim l)⟩ rest = _
    rw [ih (nextD d (jsTrim l)) (acc ++ emitMany d (jsTrim l))
      (nextD_nonneg d (jsTrim l) hd) (fun x hx => hcls x (List.mem_cons_of_mem l hx))]
    rw [List.append_assoc]
    rfl

theorem emitMany_shape (d : Int) (t : List Char) :
    ∀ o ∈ emitMany d t, o = [] ∨ ∃ k, o = List.replicate k ' ' ++ t := by
  rw [emitMany]
  split_ifs <;> intro o ho
  · left
    simpa using ho
  · right
    exact ⟨0, by simpa using ho⟩
  · right
    exact ⟨2 * d.toNat, by simpa using ho⟩
  · right
    exact ⟨0, by simpa using ho⟩
  · right
    exact ⟨0, by simpa using ho⟩
  · right
    exact ⟨2 * d.toNat, by simpa using ho⟩
  · right
    exact ⟨2 * (max 0 (d - 1)).toNat, by simpa using ho⟩
  · right
    exact ⟨2 * d.toNat, by simpa using ho⟩
  · right
    exact ⟨2 * d.toNat, by simpa using ho⟩
  · rcases List.mem_cons.mp ho with ho | ho
    · left
      exact ho
    · right
      exact ⟨2 * d.toNat, by simpa using ho⟩
  · right
    exact ⟨2 * d.toNat, by simpa using ho⟩

theorem emitMany_ne_nil (d : Int) (t : List Char) : emitMany d t ≠ [] := by
  rw [emitMany]
  split_ifs <;> exact List.cons_ne_nil _ _

theorem emitMany_no_nl (d : Int) (t : List Char) (hnl : '\n' ∉ t) :
    ∀ o ∈ emitMany d t, '\n' ∉ o := by
  intro o ho
  rcases emitMany_shape d t o ho with ho2 | ⟨k, ho2⟩
  · rw [ho2]
    simp
  · rw [ho2]
    intro hmem
    rcases List.mem_append.mp hmem with hm | hm
    · exact absurd (List.eq_of_mem_replicate hm) (by decide)
    · exact hnl hm

theorem emitAll_ne_nil (d : Int) (l : List Char) (rest : List (List Char)) :
    emitAll d (l :: rest) ≠ [] := by
  show emitMany d (jsTrim l) ++ emitAll (nextD d (jsTrim l)) rest ≠ []
  intro hc
  exact emitMany_ne_nil d (jsTrim l) (List.append_eq_nil.mp hc).1

theorem emitAll_no_nl (ls : List (List Char)) : ∀ (d : Int),
    (∀ l ∈ ls, '\n' ∉ l) → ∀ o ∈ emitAll d ls, '\n' ∉ o := by
  induction ls with
  | nil =>
    intro d _ o ho
    exact absurd ho (List.not_mem_nil o)
  | cons l rest ih =>
    intro d hnl o ho
    rcases List.mem_append.mp ho with ho | ho
    · exact emitMany_no_nl d (jsTrim l)
        (no_nl_jsTrim l (hnl l (List.mem_cons_self l rest))) o ho
    · exact ih (nextD d (jsTrim l))
        (fun x hx => hnl x (List.mem_cons_of_mem l hx)) o ho

theorem emitMany_single (d : Int) (t : List Char)
    (hroute : (routeDeclsL.any (fun p => leadsWith p t)) = false) :
    ∃ o, emitMany d t = [o] ∧ jsTrim o = jsTrim t ∧ (d = 0 → o = t) ∧
      (t ≠ [] → lastChar o = lastChar t) := by
  have hrepTrim : ∀ k : Nat, jsTrim (List.replicate k ' ' ++ t) = jsTrim t :=
    fun k => jsTrim_replicate_space k t
  have hrepLast : ∀ k : Nat, t ≠ [] → lastChar (List.replicate k ' ' ++ t) = lastChar t :=
    fun k hne => lastChar_append (List.replicate k ' ') t hne
  rw [emitMany]
  split_ifs with h1 h2 h3 h4 h5 h6 h7 h8 h9 h10
  · exact ⟨[], rfl, by rw [h1], fun _ => h1.symm, fun hne => absurd h1 hne⟩
  · exact ⟨t, rfl, rfl, fun _ => rfl, fun _ => rfl⟩
  · refine ⟨List.replicate (2 * d.toNat) ' ' ++ t, rfl, hrepTrim _, ?_, hrepLast _⟩
    intro hd0
    rw [hd0] at h4
    exact absurd h4 (by omega)
  · exact ⟨t, rfl, rfl, fun _ => rfl, fun _ => rfl⟩
  · exact ⟨t, rfl, rfl, fun _ => rfl, fun _ => rfl⟩
  · refine ⟨List.replicate (2 * d.toNat) ' ' ++ t, rfl, hrepTrim _, ?_, hrepLast _⟩
    intro hd0
    rw [hd0]
    rfl
  · refine ⟨List.replicate (2 * (max 0 (d - 1)).toNat) ' ' ++ t, rfl, hrepTrim _, ?_,
      hrepLast _⟩
    intro hd0
    rw [hd0]
    rfl
  · refine ⟨List.replicate (2 * d.toNat) ' ' ++ t, rfl, hrepTrim _, ?_, hrepLast _⟩
    intro hd0
    rw [hd0]
    rfl
  · refine ⟨List.replicate (2 * d.toNat) ' ' ++ t, rfl, hrepTrim _, ?_, hrepLast _⟩
    intro hd0
    rw [hd0]
    rfl
  · exact absurd h10 (by rw [hroute]; exact Bool.false_ne_true)
  · refine ⟨List.replicate (2 * d.toNat) ' ' ++ t, rfl, hrepTrim _, ?_, hrepLast _⟩
    intro hd0
    rw [hd0]
    rfl

theorem runFormat_class2_stable (ls : List (List Char)) :
    ∀ (d : Int) (acc : List (List Char)),
    0 ≤ d → (∀ l ∈ ls, Class2Line (jsTrim l)) →
    runFormat ⟨d, false, acc⟩ (emitAll d ls) =
      some ⟨depthAfterRun d ls, false, acc ++ emitAll d ls⟩ := by
  induction ls with
  | nil =>
    intro d acc _ _
    show some _ = _
    rw [show emitAll d [] = [] from rfl, List.append_nil]
    rfl
  | cons l rest ih =>
    intro d acc hd hcls
    obtain ⟨⟨hK, hifdef, hifndef, hendif, hbanner⟩, hroute⟩ :=
      hcls l (List.mem_cons_self l rest)
    obtain ⟨o, ho, hto, _, _⟩ := emitMany_single d (jsTrim l) hroute
    have hto2 : jsTrim o = jsTrim l := by
      rw [hto, jsTrim_idem]
    rw [show emitAll d (l :: rest) =
      emitMany d (jsTrim l) ++ emitAll (nextD d (jsTrim l)) rest from rfl, ho,
      List.singleton_append]
    show (processTrimmed ⟨d, false, acc⟩ (jsTrim o)).bind
      (fun st2 => runFormat st2 (emitAll (nextD d (jsTrim l)) rest)) = _
    rw [hto2,
      processTrimmed_class d acc (jsTrim l) hd hK hifdef hifndef hendif hbanner]
    change runFormat ⟨nextD d (jsTrim l), false, acc ++ emitMany d (jsTrim l)⟩
      (emitAll (nextD d (jsTrim l)) rest) = _
    rw [ih (nextD d (jsTrim l)) (acc ++ emitMany d (jsTrim l))
      (nextD_nonneg d (jsTrim l) hd) (fun x hx => hcls x (List.mem_cons_of_mem l hx)),
      ho, List.append_assoc, List.singleton_append]
    rfl

theorem lastChar_mem : ∀ (l : List Char) (c : Char), lastChar l = some c → c ∈ l := by
  intro l
  induction l with
  | nil =>
    intro c hc
    exact Option.noConfusion hc
  | cons x r ih =>
    intro c hc
    cases r with
    | nil =>
      have hxc : x = c := Option.some.inj hc
      subst hxc
      exact List.mem_cons_self x []
    | cons y r2 =>
      rw [lastChar_cons_ne x (y :: r2) (List.cons_ne_nil y r2)] at hc
      exact List.mem_cons_of_mem x (ih c hc)

theorem splitLines_lastLine : ∀ (u : List Char) (c : Char),
    lastChar u = some c → c ≠ '\n' →
    ∃ ll, lastLine (splitLines u) = some ll ∧ ll ≠ [] ∧ lastChar ll = some c := by
  intro u
  induction u with
  | nil =>
    intro c hc _
    exact Option.noConfusion hc
  | cons x r ih =>
    intro c hc hcn
    cases r with
    | nil =>
      have hx : c = x := (Option.some.inj hc).symm
      have hxn : x ≠ '\n' := hx ▸ hcn
      have hsp : splitLines [x] = [[x]] := by
        unfold splitLines
        rw [splitLinesA_cons, if_neg hxn]
        rfl
      rw [hsp]
      exact ⟨[x], rfl, List.cons_ne_nil x [], by rw [hx]; rfl⟩
    | cons y r2 =>
      have hc2 : lastChar (y :: r2) = some c := by
        rwa [lastChar_cons_ne x (y :: r2) (List.cons_ne_nil y r2)] at hc
      obtain ⟨ll, hll, hlne, hlc⟩ := ih c hc2 hcn
      by_cases hx : x = '\n'
      · subst hx
        rw [splitLines_cons_nl]
        refine ⟨ll, ?_, hlne, hlc⟩
        rw [lastLine_cons_ne [] (splitLines (y :: r2)) (List.cons_ne_nil _ _)]
        exact hll
      · rw [splitLines_cons_ne x (y :: r2) hx]
        by_cases h2 : (splitLinesA (y :: r2)).2 = []
        · have hsp2 : splitLines (y :: r2) = [(splitLinesA (y :: r2)).1] := by
            unfold splitLines
            rw [h2]
          rw [hsp2] at hll
          have hll2 : (splitLinesA (y :: r2)).1 = ll := Option.some.inj hll
          rw [h2]
          refine ⟨x :: (splitLinesA (y :: r2)).1, rfl, List.cons_ne_nil _ _, ?_⟩
          rw [hll2, lastChar_cons_ne x ll hlne]
          exact hlc
        · have hsp2 : lastLine (splitLines (y :: r2)) =
            lastLine (splitLinesA (y :: r2)).2 := by
            unfold splitLines
            exact lastLine_cons_ne _ _ h2
          rw [hsp2] at hll
          refine ⟨ll, ?_, hlne, hlc⟩
          rw [lastLine_cons_ne _ _ h2]
          exact hll

theorem emitAll_lastLine : ∀ (ls : List (List Char)) (d : Int) (lz : List Char),
    lastLine ls = some lz →
    (∀ l ∈ ls, Class2Line (jsTrim l)) →
    ∃ o, lastLine (emitAll d ls) = some o ∧ jsTrim o = jsTrim lz ∧
      (jsTrim lz ≠ [] → lastChar o = lastChar (jsTrim lz)) := by
  intro ls
  induction ls with
  | nil =>
    intro d lz hlast _
    exact Option.noConfusion hlast
  | cons l rest ih =>
    intro d lz hlast hcls
    have hroute := (hcls l (List.mem_cons_self l rest)).2
    cases rest with
    | nil =>
      have hlz : l = lz := Option.some.inj hlast
      subst hlz
      obtain ⟨o, ho, hto, _, hlasto⟩ := emitMany_single d (jsTrim l) hroute
      refine ⟨o, ?_, by rw [hto, jsTrim_idem], ?_⟩
      · show lastLine (emitMany d (jsTrim l) ++ emitAll (nextD d (jsTrim l)) []) = some o
        rw [show emitAll (nextD d (jsTrim l)) [] = [] from rfl, List.append_nil, ho]
        rfl
      · intro hne
        exact hlasto hne
    | cons l2 rest2 =>
      have hlast2 : lastLine (l2 :: rest2) = some lz := by
        rwa [lastLine_cons_ne l (l2 :: rest2) (List.cons_ne_nil l2 rest2)] at hlast
      obtain ⟨o2, ho2, hto2, hl2⟩ := ih (nextD d (jsTrim l)) lz hlast2
        (fun x hx => hcls x (List.mem_cons_of_mem l hx))
      refine ⟨o2, ?_, hto2, hl2⟩
      show lastLine (emitMany d (jsTrim l) ++
        emitAll (nextD d (jsTrim l)) (l2 :: rest2)) = some o2
      rw [lastLine_append _ _ (emitAll_ne_nil _ _ _)]
      exact ho2

theorem noBlankInsertLine_class2 (t : List Char) (h : noBlankInsertLine t = true) :
    Class2Line t := by
  unfold noBlankInsertLine at h
  simp only [Bool.and_eq_true, Bool.not_eq_true'] at h
  obtain ⟨⟨⟨⟨⟨hk, hifdef⟩, hifndef⟩, hendif⟩, hbanner⟩, hroute⟩ := h
  refine ⟨⟨?_, hifdef, hifndef, ?_, hbanner⟩, hroute⟩
  · intro hc
    rw [hc] at hk
    simp at hk
  · intro hc
    rw [hc] at hendif
    simp at hendif

/-- Claim C2, amended: formatting is idempotent for well-formed input
none of whose lines triggers a blank-line-inserting rule (no KAMAILIO
directive, no ifdef/ifndef or endif, no section banner, no route
declaration). For such inputs the first pass only re-indents lines, and
a second pass reproduces the output exactly. -/
theorem format_idempotent_on_blankfree (s : String)
    (_hv : validateKamailioConfig s = Except.ok ())
    (hcls : noBlankInsertLines s = true) :
    ∃ c, formatKamailioConfig s = some c ∧
      (formatKamailioConfig c.formattedContent).map (fun x => x.formattedContent) =
        some c.formattedContent := by
  have hcls2 : (splitLines (jsTrim (s.data))).all
      (fun l => noBlankInsertLine (jsTrim l)) = true := hcls
  have hcl : ∀ l ∈ splitLines (jsTrim (s.data)), Class2Line (jsTrim l) :=
    fun l hl => noBlankInsertLine_class2 (jsTrim l) ((List.all_eq_true.mp hcls2) l hl)
  by_cases hu : jsTrim (s.data) = []
  · have h1 : formatKamailioConfig s = some ⟨s, String.mk []⟩ := by
      unfold formatKamailioConfig
      rw [hu]
      rfl
    exact ⟨⟨s, String.mk []⟩, h1, rfl⟩
  · have hclsL : ∀ l ∈ splitLines (jsTrim (s.data)), ClassLine (jsTrim l) :=
      fun l hl => (hcl l hl).1
    have hrun := runFormat_class (splitLines (jsTrim (s.data))) 0 [] (le_refl 0) hclsL
    have hfmt : formatKamailioConfig s =
        some ⟨s, String.mk (joinLines (emitAll 0 (splitLines (jsTrim (s.data)))))⟩ := by
      unfold formatKamailioConfig
      rw [show initState = (⟨0, false, []⟩ : FmtState) from rfl, hrun]
      simp only [Option.map_some', List.nil_append]
    cases hu2 : jsTrim (s.data) with
    | nil => exact absurd hu2 hu
    | cons c0 u' =>
      have hc0ws : wsChar c0 = false := jsTrim_head_not_ws (s.data) c0 u' hu2
      have hc0nl : c0 ≠ '\n' := by
        intro hc
        rw [hc] at hc0ws
        exact absurd hc0ws (by decide)
      have hL : splitLines (jsTrim (s.data)) =
          (c0 :: (splitLinesA u').1) :: (splitLinesA u').2 := by
        rw [hu2]
        exact splitLines_cons_ne c0 u' hc0nl
      have ht0ne : jsTrim (c0 :: (splitLinesA u').1) ≠ [] := by
        intro hc
        have hws := (jsTrim_eq_nil_iff _).mp hc c0 (List.mem_cons_self _ _)
        rw [hc0ws] at hws
        exact Bool.noConfusion hws
      have hroute0 : (routeDeclsL.any
          (fun p => leadsWith p (jsTrim (c0 :: (splitLinesA u').1)))) = false :=
        (hcl (c0 :: (splitLinesA u').1)
          (by rw [hL]; exact List.mem_cons_self _ _)).2
      obtain ⟨o0, ho0, _, ho0z, _⟩ :=
        emitMany_single 0 (jsTrim (c0 :: (splitLinesA u').1)) hroute0
      have ho0t : o0 = jsTrim (c0 :: (splitLinesA u').1) := ho0z rfl
      have hosE : emitAll 0 (splitLines (jsTrim (s.data))) =
          jsTrim (c0 :: (splitLinesA u').1) ::
            emitAll (nextD 0 (jsTrim (c0 :: (splitLinesA u').1)))
              (splitLinesA u').2 := by
        rw [hL]
        show emitMany 0 (jsTrim (c0 :: (splitLinesA u').1)) ++ _ = _
        rw [ho0, ho0t, List.singleton_append]
      cases ht0 : jsTrim (c0 :: (splitLinesA u').1) with
      | nil => exact absurd ht0 ht0ne
      | cons c1 r1 =>
        have hc1ws : wsChar c1 = false := jsTrim_head_not_ws _ c1 r1 ht0
        obtain ⟨cz, hcz, hczws⟩ := jsTrim_last_not_ws (s.data) hu
        have hcznl : cz ≠ '\n' := by
          intro hc
          rw [hc] at hczws
          exact absurd hczws (by decide)
        obtain ⟨lz, hlz, hlzne, hlzc⟩ :=
          splitLines_lastLine (jsTrim (s.data)) cz hcz hcznl
        have hlztne : jsTrim lz ≠ [] := by
          intro hc
          have hmem := lastChar_mem lz cz hlzc
          have hws := (jsTrim_eq_nil_iff lz).mp hc cz hmem
          rw [hczws] at hws
          exact Bool.noConfusion hws
        have hlzt : lastChar (jsTrim lz) = some cz := by
          have htlne : trimL lz ≠ [] := by
            intro hc
            obtain ⟨a, ha, haw⟩ := trimL_decomp lz
            rw [hc, List.append_nil] at ha
            have hmem := lastChar_mem lz cz hlzc
            have hws := haw cz (ha ▸ hmem)
            rw [hczws] at hws
            exact Bool.noConfusion hws
          have hlastTL : lastChar (trimL lz) = some cz := by
            obtain ⟨a, ha, _⟩ := trimL_decomp lz
            rw [ha] at hlzc
            rwa [lastChar_append a (trimL lz) htlne] at hlzc
          show lastChar (trimR (trimL lz)) = some cz
          rw [trimR_eq_self_of_last (trimL lz) cz hlastTL hczws]
          exact hlastTL
        obtain ⟨oz, hoz, _, hozlast⟩ :=
          emitAll_lastLine (splitLines (jsTrim (s.data))) 0 lz hlz hcl
        have hozc : lastChar oz = some cz := by
          rw [hozlast hlztne, hlzt]
        have hozne : oz ≠ [] := by
          intro hc
          rw [hc] at hozc
          exact Option.noConfusion hozc
        obtain ⟨w, hw⟩ := joinLines_head (jsTrim (c0 :: (splitLinesA u').1))
          (emitAll (nextD 0 (jsTrim (c0 :: (splitLinesA u').1)))
            (splitLinesA u').2) c1 r1 ht0
        have hw2 : joinLines (emitAll 0 (splitLines (jsTrim (s.data)))) = c1 :: w := by
          rw [hosE]
          exact hw
        have hjoinlast :
            lastChar (joinLines (emitAll 0 (splitLines (jsTrim (s.data))))) = some cz := by
          rw [joinLines_lastChar _ oz hoz hozne]
          exact hozc
        have hstab : jsTrim (joinLines (emitAll 0 (splitLines (jsTrim (s.data))))) =
            joinLines (emitAll 0 (splitLines (jsTrim (s.data)))) :=
          jsTrim_eq_self _ c1 cz w hw2 hc1ws hjoinlast hczws
        have hnl_os : ∀ o ∈ emitAll 0 (splitLines (jsTrim (s.data))), '\n' ∉ o :=
          emitAll_no_nl _ 0 (mem_splitLines_no_nl _)
        have hos_ne : emitAll 0 (splitLines (jsTrim (s.data))) ≠ [] := by
          rw [hL]
          exact emitAll_ne_nil 0 _ _
        have hsplit : splitLines (joinLines (emitAll 0 (splitLines (jsTrim (s.data))))) =
            emitAll 0 (splitLines (jsTrim (s.data))) :=
          splitLines_joinLines _ hos_ne hnl_os
        have hsecond : formatKamailioConfig
            (String.mk (joinLines (emitAll 0 (splitLines (jsTrim (s.data)))))) =
            some ⟨String.mk (joinLines (emitAll 0 (splitLines (jsTrim (s.data))))),
                  String.mk (joinLines (emitAll 0 (splitLines (jsTrim (s.data)))))⟩ := by
          unfold formatKamailioConfig
          rw [show (String.mk (joinLines (emitAll 0 (splitLines (jsTrim (s.data)))))).data
            = joinLines (emitAll 0 (splitLines (jsTrim (s.data)))) from rfl]
          rw [hstab, hsplit]
          rw [show initState = (⟨0, false, []⟩ : FmtState) from rfl]
          rw [runFormat_class2_stable (splitLines (jsTrim (s.data))) 0 [] (le_refl 0) hcl]
          simp only [Option.map_some', List.nil_append]
        refine ⟨⟨s, String.mk (joinLines (emitAll 0 (splitLines (jsTrim (s.data)))))⟩,
          hfmt, ?_⟩
        rw [show (⟨s, String.mk (joinLines (emitAll 0 (splitLines (jsTrim (s.data)))))⟩ :
          KamailioConfig).formattedContent =
          String.mk (joinLines (emitAll 0 (splitLines (jsTrim (s.data))))) from rfl]
        rw [hsecond]
        rfl

/-- Witness for the amended claim C2 at a concrete input. -/
theorem format_idempotent_on_blankfree_witness :
    ∃ c, formatKamailioConfig "a=1\nb=2" = some c ∧
      (formatKamailioConfig c.formattedContent).map (fun x => x.formattedContent) =
        some c.formattedContent :=
  format_idempotent_on_blankfree "a=1\nb=2" (by decide) (by decide)

/- From validator success to a non-negative brace scan over the lines
the formatter processes. -/

theorem validateLoop_scanOk : ∀ (ls : List (List Char)) (b p : Int) (i : Nat),
    validateLoop b p i ls = Except.ok () → scanOk b (ls.map jsTrim) := by
  intro ls
  induction ls with
  | nil =>
    intro b p i _
    trivial
  | cons l rest ih =>
    intro b p i h
    rw [validateLoop] at h
    cases hps : preStep p i (jsTrim l) with
    | error e =>
      rw [hps] at h
      exact Except.noConfusion h
    | ok p2 =>
      rw [hps] at h
      have h3 : (if b + (countChar '\x7b' (jsTrim l) : Int) -
          (countChar '\x7d' (jsTrim l) : Int) < 0 then
          (Except.error (ValError.unexpectedClosingBracket (i + 1)) :
            Except ValError Unit)
        else validateLoop (b + (countChar '\x7b' (jsTrim l) : Int) -
          (countChar '\x7d' (jsTrim l) : Int)) p2 (i + 1) rest) = Except.ok () := h
      by_cases hb2 : b + (countChar '\x7b' (jsTrim l) : Int) -
          (countChar '\x7d' (jsTrim l) : Int) < 0
      · rw [if_pos hb2] at h3
        exact Except.noConfusion h3
      · rw [if_neg hb2] at h3
        rename' h3 => h
        refine ⟨?_, ?_⟩
        · unfold braceDelta
          omega
        · have hEq : b + braceDelta (jsTrim l) =
              b + (countChar '\x7b' (jsTrim l) : Int) -
                (countChar '\x7d' (jsTrim l) : Int) := by
            unfold braceDelta
            ring
          rw [hEq]
          exact ih _ _ _ h

/-- Keep only the lines with a non-zero brace balance. -/
def filterD : List (List Char) → List (List Char)
  | [] => []
  | t :: ts => if braceDelta t = 0 then filterD ts else t :: filterD ts

theorem braceDelta_nil : braceDelta [] = 0 := rfl

theorem scanOk_filterD : ∀ (ts : List (List Char)) (b : Int), 0 ≤ b →
    (scanOk b ts ↔ scanOk b (filterD ts)) := by
  intro ts
  induction ts with
  | nil =>
    intro b _
    exact Iff.rfl
  | cons t rest ih =>
    intro b hb
    show (0 ≤ b + braceDelta t ∧ scanOk (b + braceDelta t) rest) ↔
      scanOk b (if braceDelta t = 0 then filterD rest else t :: filterD rest)
    by_cases hδ : braceDelta t = 0
    · rw [if_pos hδ, hδ, add_zero]
      constructor
      · intro hh
        exact (ih b hb).mp hh.2
      · intro hh
        exact ⟨hb, (ih b hb).mpr hh⟩
    · rw [if_neg hδ]
      show _ ↔ (0 ≤ b + braceDelta t ∧ scanOk (b + braceDelta t) (filterD rest))
      exact and_congr_right (fun h0 => ih (b + braceDelta t) h0)

theorem filterD_filterNB : ∀ ts : List (List Char), filterD ts = filterD (filterNB ts) := by
  intro ts
  induction ts with
  | nil => rfl
  | cons t rest ih =>
    by_cases ht : t = []
    · have hδ : braceDelta t = 0 := by
        rw [ht]
        rfl
      show (if braceDelta t = 0 then filterD rest else t :: filterD rest) =
        filterD (if t = [] then filterNB rest else t :: filterNB rest)
      rw [if_pos hδ, if_pos ht]
      exact ih
    · show (if braceDelta t = 0 then filterD rest else t :: filterD rest) =
        filterD (if t = [] then filterNB rest else t :: filterNB rest)
      rw [if_neg ht]
      show _ = (if braceDelta t = 0 then filterD (filterNB rest)
        else t :: filterD (filterNB rest))
      by_cases hδ : braceDelta t = 0
      · rw [if_pos hδ, if_pos hδ]
        exact ih
      · rw [if_neg hδ, if_neg hδ, ih]

theorem validator_scanOk_trimmedDoc (s : String)
    (h : validateKamailioConfig s = Except.ok ()) :
    scanOk 0 ((splitLines (jsTrim (s.data))).map jsTrim) := by
  have h1 : scanOk 0 ((splitLines (s.data)).map jsTrim) :=
    validateLoop_scanOk _ 0 0 0 h
  have h2 : filterD ((splitLines (s.data)).map jsTrim) =
      filterD ((splitLines (jsTrim (s.data))).map jsTrim) := by
    rw [filterD_filterNB, filterD_filterNB ((splitLines (jsTrim (s.data))).map jsTrim)]
    show filterD (trimsNB (s.data)) = filterD (trimsNB (jsTrim (s.data)))
    rw [trimsNB_jsTrim]
  rw [scanOk_filterD _ 0 (le_refl 0), ← h2]
  exact (scanOk_filterD _ 0 (le_refl 0)).mp h1

/- Width and counting helpers. -/

theorem hasChar_count_pos (x : Char) : ∀ t : List Char,
    hasChar x t = true → 1 ≤ countChar x t := by
  intro t
  induction t with
  | nil =>
    intro h
    exact Bool.noConfusion h
  | cons c r ih =>
    intro h
    show 1 ≤ (if c = x then 1 else 0) + countChar x r
    have h2 : (c == x) = true ∨ hasChar x r = true := by
      have := h
      rw [show hasChar x (c :: r) = ((c == x) || hasChar x r) from rfl,
        Bool.or_eq_true] at this
      exact this
    rcases h2 with h2 | h2
    · rw [if_pos (by exact beq_iff_eq.mp h2)]
      omega
    · have := ih h2
      omega

theorem hasChar_count_zero (x : Char) : ∀ t : List Char,
    hasChar x t = false → countChar x t = 0 := by
  intro t
  induction t with
  | nil =>
    intro _
    rfl
  | cons c r ih =>
    intro h
    rw [show hasChar x (c :: r) = ((c == x) || hasChar x r) from rfl,
      Bool.or_eq_false_iff] at h
    show (if c = x then 1 else 0) + countChar x r = 0
    rw [if_neg (by
      intro hc
      rw [hc] at h
      simp at h), ih h.2]

theorem leadsWith_hash_head (t : List Char) (h : leadsWith hashL t = true) :
    ∃ r, t = '#' :: r := by
  cases t with
  | nil => exact Bool.noConfusion h
  | cons c r =>
    have h2 : ('#' == c) = true := by
      rw [show leadsWith hashL (c :: r) = (('#' == c) && leadsWith [] r) from rfl,
        Bool.and_eq_true] at h
      exact h.1
    exact ⟨r, by rw [beq_iff_eq.mp h2]⟩

theorem lineIndentWidth_cons_of_ne (c : Char) (r : List Char) (hc : ¬c = ' ') :
    lineIndentWidth (c :: r) = 0 := by
  unfold lineIndentWidth
  rw [List.takeWhile_cons]
  rw [show (c == ' ') = false from by
    cases hcc : c == ' ' with
    | false => rfl
    | true => exact absurd (beq_iff_eq.mp hcc) hc]
  rfl

theorem lineIndentWidth_rep_cons (k : Nat) (c : Char) (r : List Char) (hc : ¬c = ' ') :
    lineIndentWidth (List.replicate k ' ' ++ c :: r) = k := by
  induction k with
  | zero =>
    rw [List.replicate_zero, List.nil_append]
    exact lineIndentWidth_cons_of_ne c r hc
  | succ n ih =>
    rw [List.replicate_succ, List.cons_append]
    unfold lineIndentWidth at ih ⊢
    rw [List.takeWhile_cons]
    rw [show (' ' == ' ') = true from rfl, if_pos rfl]
    rw [List.length_cons, ih]

theorem trimmed_head_not_space (t : List Char) (c : Char) (r : List Char)
    (ht : jsTrim t = t) (hct : t = c :: r) : ¬c = ' ' := by
  have hws : wsChar c = false := jsTrim_head_not_ws t c r (by rw [ht]; exact hct)
  intro hc
  rw [hc] at hws
  exact absurd hws (by decide)

/-- Propositional form of braceTrackedLine. -/
def Class5Line (t : List Char) : Prop :=
  leadsWith bangL t = false ∧ leadsWith listenL t = false ∧
  leadsWith bannerL t = false ∧
  (leadsWith hashL t = true → countChar '\x7b' t = 0 ∧ countChar '\x7d' t = 0) ∧
  (leadsWith hashL t = false → countChar '\x7b' t + countChar '\x7d' t ≤ 1) ∧
  ((leadsWith ifL t = true ∨ leadsWith elseKwL t = true) →
    (hasChar '\x7b' t = true ∨ hasChar '\x7d' t = true))

theorem braceTrackedLine_class5 (t : List Char) (h : braceTrackedLine t = true) :
    Class5Line t := by
  unfold braceTrackedLine at h
  simp only [Bool.and_eq_true, Bool.not_eq_true', Bool.or_eq_true] at h
  obtain ⟨⟨⟨⟨hbang, hlisten⟩, hbanner⟩, hmid⟩, hlast⟩ := h
  refine ⟨hbang, hlisten, hbanner, ?_, ?_, ?_⟩
  · intro hh
    rw [if_pos hh] at hmid
    rw [Bool.and_eq_true] at hmid
    exact ⟨beq_iff_eq.mp hmid.1, beq_iff_eq.mp hmid.2⟩
  · intro hh
    rw [if_neg (by rw [hh]; exact Bool.false_ne_true)] at hmid
    exact of_decide_eq_true hmid
  · intro hor
    rcases hlast with ⟨hni, hne⟩ | hbr
    · rcases hor with h | h
      · rw [h] at hni
        exact Bool.noConfusion hni
      · rw [h] at hne
        exact Bool.noConfusion hne
    · exact hbr

theorem leadsWith_mono : ∀ (p q t : List Char),
    leadsWith (p ++ q) t = true → leadsWith p t = true := by
  intro p
  induction p with
  | nil =>
    intro q t _
    rfl
  | cons x p2 ih =>
    intro q t h
    cases t with
    | nil => exact Bool.noConfusion h
    | cons c r =>
      have h2 : ((x == c) && leadsWith (p2 ++ q) r) = true := h
      rw [Bool.and_eq_true] at h2
      show ((x == c) && leadsWith p2 r) = true
      rw [Bool.and_eq_true]
      exact ⟨h2.1, ih q r h2.2⟩

theorem class5_classLine (t : List Char) (h5 : Class5Line t) : ClassLine t := by
  obtain ⟨hbang, _, hbanner, _, _, _⟩ := h5
  refine ⟨ne_kam_of_not_bang t hbang, ?_, ?_, ?_, hbanner⟩
  · cases hi : leadsWith ifdefL t with
    | false => rfl
    | true =>
      exfalso
      have he : ifdefL = bangL ++ ("ifdef").data := by decide
      have h2 : leadsWith (bangL ++ ("ifdef").data) t = true := he ▸ hi
      have h3 := leadsWith_mono bangL (("ifdef").data) t h2
      rw [hbang] at h3
      exact Bool.noConfusion h3
  · cases hi : leadsWith ifndefL t with
    | false => rfl
    | true =>
      exfalso
      have he : ifndefL = bangL ++ ("ifndef").data := by decide
      have h2 : leadsWith (bangL ++ ("ifndef").data) t = true := he ▸ hi
      have h3 := leadsWith_mono bangL (("ifndef").data) t h2
      rw [hbang] at h3
      exact Bool.noConfusion h3
  · intro hc
    have hk : leadsWith bangL endifL = true := by decide
    rw [hc, hk] at hbang
    exact Bool.noConfusion hbang

/-- The running depth of the specification measure after a list of
lines. -/
def specAfter (d : Int) : List (List Char) → Int
  | [] => d
  | l :: rest =>
    specAfter (if leadsWith hashL (jsTrim l) = true then d
               else d + braceDelta (jsTrim l)) rest

theorem consistAux_cons (d : Int) (l : List Char) (rest : List (List Char)) :
    consistAux d (l :: rest) =
      (if leadsWith hashL (jsTrim l) = true then
        ((decide (l = []) || decide ((lineIndentWidth l : Int) = 2 * d)) &&
          consistAux d rest)
      else
        ((decide (l = []) ||
          decide ((lineIndentWidth l : Int) =
            2 * (d - (countChar '\x7d' (jsTrim l) : Int)))) &&
          consistAux (d + braceDelta (jsTrim l)) rest)) := by
  cases hh : leadsWith hashL (jsTrim l) with
  | true => simp [consistAux, hh]
  | false => simp [consistAux, hh]

theorem consistAux_append : ∀ (a b : List (List Char)) (d : Int),
    consistAux d (a ++ b) = (consistAux d a && consistAux (specAfter d a) b) := by
  intro a
  induction a with
  | nil =>
    intro b d
    rfl
  | cons l a2 ih =>
    intro b d
    rw [List.cons_append, consistAux_cons, consistAux_cons,
      show specAfter d (l :: a2) =
        specAfter (if leadsWith hashL (jsTrim l) = true then d
          else d + braceDelta (jsTrim l)) a2 from rfl]
    by_cases hh : leadsWith hashL (jsTrim l) = true
    · simp only [if_pos hh]
      rw [ih, Bool.and_assoc]
    · simp only [if_neg hh]
      rw [ih, Bool.and_assoc]

theorem consistAux_blank_cons (d : Int) (rest : List (List Char)) :
    consistAux d ([] :: rest) = consistAux d rest := by
  rw [consistAux_cons, if_neg (by decide)]
  rw [show decide (([] : List Char) = []) = true from rfl, Bool.true_or,
    Bool.true_and,
    show braceDelta (jsTrim ([] : List Char)) = 0 from by decide, add_zero]

theorem specAfter_blank_cons (d : Int) (rest : List (List Char)) :
    specAfter d ([] :: rest) = specAfter d rest := by
  show specAfter (if leadsWith hashL (jsTrim ([] : List Char)) = true then d
    else d + braceDelta (jsTrim ([] : List Char))) rest = specAfter d rest
  rw [if_neg (by decide),
    show braceDelta (jsTrim ([] : List Char)) = 0 from by decide, add_zero]

theorem consistAux_single (d : Int) (o : List Char) :
    consistAux d [o] =
      (if leadsWith hashL (jsTrim o) = true then
        (decide (o = []) || decide ((lineIndentWidth o : Int) = 2 * d))
      else (decide (o = []) || decide ((lineIndentWidth o : Int) =
        2 * (d - (countChar '\x7d' (jsTrim o) : Int))))) := by
  rw [consistAux_cons]
  by_cases hh : leadsWith hashL (jsTrim o) = true
  · rw [if_pos hh, if_pos hh]
    exact Bool.and_true _
  · rw [if_neg hh, if_neg hh]
    exact Bool.and_true _

theorem specAfter_single (d : Int) (o : List Char) :
    specAfter d [o] =
      (if leadsWith hashL (jsTrim o) = true then d
       else d + braceDelta (jsTrim o)) := rfl

theorem consist_step (d : Int) (t : List Char) (hd : 0 ≤ d) (ht : jsTrim t = t)
    (hscan : 0 ≤ d + braceDelta t) (hc5 : Class5Line t) :
    consistAux d (emitMany d t) = true ∧
    specAfter d (emitMany d t) = d + braceDelta t ∧
    nextD d t = d + braceDelta t := by
  obtain ⟨hbang, hlisten, hbanner, hcom, hncom, hifels⟩ := hc5
  have hbangN : ¬leadsWith bangL t = true := by
    rw [hbang]
    exact Bool.false_ne_true
  have hlistenN : ¬leadsWith listenL t = true := by
    rw [hlisten]
    exact Bool.false_ne_true
  rw [emitMany, nextD]
  by_cases h1 : t = []
  · simp only [if_pos h1]
    subst h1
    refine ⟨?_, ?_, ?_⟩
    · rw [consistAux_blank_cons]
      rfl
    · rw [specAfter_blank_cons]
      show d = d + braceDelta []
      rw [braceDelta_nil, add_zero]
    · show d = d + braceDelta []
      rw [braceDelta_nil, add_zero]
  · simp only [if_neg h1]
    obtain ⟨c, r, hcr⟩ : ∃ c r, t = c :: r := by
      cases t with
      | nil => exact absurd rfl h1
      | cons c r => exact ⟨c, r, rfl⟩
    have hcsp : ¬c = ' ' := trimmed_head_not_space t c r ht hcr
    by_cases h2 : leadsWith bangL t = true
    · exact absurd h2 hbangN
    · simp only [if_neg h2]
      by_cases h3 : leadsWith hashL t = true
      · obtain ⟨hz1, hz2⟩ := hcom h3
        have hdel : braceDelta t = 0 := by
          unfold braceDelta
          omega
        simp only [if_pos h3]
        by_cases h4 : 0 < d
        · simp only [if_pos h4]
          have hjo : jsTrim (List.replicate (2 * d.toNat) ' ' ++ t) = t := by
            rw [jsTrim_replicate_space]
            exact ht
          refine ⟨?_, ?_, ?_⟩
          · rw [consistAux_single, hjo, if_pos h3]
            rw [Bool.or_eq_true]
            right
            rw [decide_eq_true_eq, hcr, lineIndentWidth_rep_cons _ c r hcsp]
            omega
          · rw [specAfter_single, hjo, if_pos h3, hdel, add_zero]
          · rw [hdel, add_zero]
        · simp only [if_neg h4]
          have hd0 : d = 0 := by omega
          refine ⟨?_, ?_, ?_⟩
          · rw [consistAux_single, ht, if_pos h3]
            rw [Bool.or_eq_true]
            right
            rw [decide_eq_true_eq, hcr, lineIndentWidth_cons_of_ne c r hcsp]
            omega
          · rw [specAfter_single, ht, if_pos h3, hdel, add_zero]
          · rw [hdel, add_zero]
      · have h3f : leadsWith hashL t = false := by
          simpa using h3
        have h3N : ¬leadsWith hashL t = true := h3
        have hsum := hncom h3f
        simp only [if_neg h3]
        by_cases h5x : leadsWith listenL t = true
        · exact absurd h5x hlistenN
        · simp only [if_neg h5x]
          by_cases h6 : hasChar '\x7b' t = true
          · have hp := hasChar_count_pos '\x7b' t h6
            have hz2 : countChar '\x7d' t = 0 := by omega
            have hdel : braceDelta t = 1 := by
              unfold braceDelta
              omega
            simp only [if_pos h6]
            have hjo : jsTrim (List.replicate (2 * d.toNat) ' ' ++ t) = t := by
              rw [jsTrim_replicate_space]
              exact ht
            refine ⟨?_, ?_, ?_⟩
            · rw [consistAux_single, hjo, if_neg h3N]
              rw [Bool.or_eq_true]
              right
              rw [decide_eq_true_eq, hz2, hcr, lineIndentWidth_rep_cons _ c r hcsp]
              omega
            · rw [specAfter_single, hjo, if_neg h3N]
            · rw [hdel]
          · simp only [if_neg h6]
            have h6f : hasChar '\x7b' t = false := by
              simpa using h6
            have hz1 : countChar '\x7b' t = 0 := hasChar_count_zero _ t h6f
            by_cases h7 : hasChar '\x7d' t = true
            · have hp := hasChar_count_pos '\x7d' t h7
              have hz2 : countChar '\x7d' t = 1 := by omega
              have hdel : braceDelta t = -1 := by
                unfold braceDelta
                omega
              have hd1 : 1 ≤ d := by
                rw [hdel] at hscan
                omega
              have hmax : max 0 (d - 1) = d - 1 := by omega
              simp only [if_pos h7]
              have hjo : jsTrim (List.replicate (2 * (max 0 (d - 1)).toNat) ' ' ++ t)
                  = t := by
                rw [jsTrim_replicate_space]
                exact ht
              refine ⟨?_, ?_, ?_⟩
              · rw [consistAux_single, hjo, if_neg h3N]
                rw [Bool.or_eq_true]
                right
                rw [decide_eq_true_eq, hz2, hcr,
                  lineIndentWidth_rep_cons _ c r hcsp, hmax]
                omega
              · rw [specAfter_single, hjo, if_neg h3N]
              · rw [hdel, hmax]
                omega
            · simp only [if_neg h7]
              have h7f : hasChar '\x7d' t = false := by
                simpa using h7
              have hz2 : countChar '\x7d' t = 0 := hasChar_count_zero _ t h7f
              have hdel : braceDelta t = 0 := by
                unfold braceDelta
                omega
              have hjo : jsTrim (List.replicate (2 * d.toNat) ' ' ++ t) = t := by
                rw [jsTrim_replicate_space]
                exact ht
              have hone : consistAux d [List.replicate (2 * d.toNat) ' ' ++ t]
                  = true := by
                rw [consistAux_single, hjo, if_neg h3N]
                rw [Bool.or_eq_true]
                right
                rw [decide_eq_true_eq, hz2, hcr, lineIndentWidth_rep_cons _ c r hcsp]
                omega
              have hspecone : specAfter d [List.replicate (2 * d.toNat) ' ' ++ t]
                  = d + braceDelta t := by
                rw [specAfter_single, hjo, if_neg h3N]
              by_cases h8 : leadsWith loadmoduleL t = true
              · simp only [if_pos h8]
                exact ⟨hone, hspecone, by rw [hdel, add_zero]⟩
              · simp only [if_neg h8]
                by_cases h9 : leadsWith modparamL t = true
                · simp only [if_pos h9]
                  exact ⟨hone, hspecone, by rw [hdel, add_zero]⟩
                · simp only [if_neg h9]
                  by_cases h10 : (routeDeclsL.any (fun p => leadsWith p t)) = true
                  · simp only [if_pos h10]
                    refine ⟨?_, ?_, by rw [hdel, add_zero]⟩
                    · rw [consistAux_blank_cons]
                      exact hone
                    · rw [specAfter_blank_cons]
                      exact hspecone
                  · simp only [if_neg h10]
                    by_cases h11 : hasChar '=' t = true ∧ hasSeq eqeqL t = false
                    · simp only [if_pos h11]
                      exact ⟨hone, hspecone, by rw [hdel, add_zero]⟩
                    · simp only [if_neg h11]
                      by_cases h12 : (sipFnsL.any (fun p => leadsWith p t)) = true
                      · simp only [if_pos h12]
                        exact ⟨hone, hspecone, by rw [hdel, add_zero]⟩
                      · simp only [if_neg h12]
                        by_cases h13 : leadsWith ifL t = true ∨
                            leadsWith elseKwL t = true
                        · exfalso
                          rcases hifels h13 with hbr | hbr
                          · rw [h6f] at hbr
                            exact Bool.noConfusion hbr
                          · rw [h7f] at hbr
                            exact Bool.noConfusion hbr
                        · simp only [if_neg h13]
                          exact ⟨hone, hspecone, by rw [hdel, add_zero]⟩

theorem specAfter_append : ∀ (a b : List (List Char)) (d : Int),
    specAfter d (a ++ b) = specAfter (specAfter d a) b := by
  intro a
  induction a with
  | nil =>
    intro b d
    rfl
  | cons l a2 ih =>
    intro b d
    rw [List.cons_append]
    show specAfter (if leadsWith hashL (jsTrim l) = true then d
      else d + braceDelta (jsTrim l)) (a2 ++ b) =
      specAfter (specAfter (if leadsWith hashL (jsTrim l) = true then d
        else d + braceDelta (jsTrim l)) a2) b
    exact ih b _

theorem consist_run : ∀ (ls : List (List Char)) (d : Int), 0 ≤ d →
    (∀ l ∈ ls, Class5Line (jsTrim l)) →
    scanOk d (ls.map jsTrim) →
    consistAux d (emitAll d ls) = true ∧
    specAfter d (emitAll d ls) = depthAfterRun d ls := by
  intro ls
  induction ls with
  | nil =>
    intro d _ _ _
    exact ⟨rfl, rfl⟩
  | cons l ls ih =>
    intro d hd hcls hscan
    have hscan2 : 0 ≤ d + braceDelta (jsTrim l) ∧
        scanOk (d + braceDelta (jsTrim l)) (ls.map jsTrim) := hscan
    obtain ⟨hA, hB, hC⟩ :=
      consist_step d (jsTrim l) hd (jsTrim_idem l) hscan2.1
        (hcls l (List.mem_cons_self _ _))
    have hd2 : 0 ≤ d + braceDelta (jsTrim l) := hscan2.1
    have hcls2 : ∀ x ∈ ls, Class5Line (jsTrim x) :=
      fun x hx => hcls x (List.mem_cons_of_mem _ hx)
    have hih := ih (d + braceDelta (jsTrim l)) hd2 hcls2 hscan2.2
    refine ⟨?_, ?_⟩
    · show consistAux d (emitMany d (jsTrim l) ++
        emitAll (nextD d (jsTrim l)) ls) = true
      rw [consistAux_append, hA, Bool.true_and, hB, hC]
      exact hih.1
    · show specAfter d (emitMany d (jsTrim l) ++
        emitAll (nextD d (jsTrim l)) ls) =
        depthAfterRun (nextD d (jsTrim l)) ls
      rw [specAfter_append, hB, hC]
      exact hih.2

/-- C5 (amended): for validator-accepted input every line of which is
brace-tracked (no #! directives, listen lines or section banners;
comment lines hold no braces; other lines hold at most one brace in
total; if/else lines contain a brace), every output line's indentation
is two spaces times the net brace depth measured up to and including
that line, counting a line's own closing braces before the line and
ignoring comment lines when accumulating depth. -/
theorem indent_tracks_brace_depth (s : String)
    (hv : validateKamailioConfig s = Except.ok ())
    (hcls : braceTrackedLines s = true) :
    ∃ c, formatKamailioConfig s = some c ∧
      indentConsistentB (splitLines ((c.formattedContent).data)) = true := by
  have hcls2 : (splitLines (jsTrim (s.data))).all
      (fun l => braceTrackedLine (jsTrim l)) = true := hcls
  have hc5 : ∀ l ∈ splitLines (jsTrim (s.data)), Class5Line (jsTrim l) :=
    fun l hl => braceTrackedLine_class5 (jsTrim l) ((List.all_eq_true.mp hcls2) l hl)
  by_cases hu : jsTrim (s.data) = []
  · have h1 : formatKamailioConfig s = some ⟨s, String.mk []⟩ := by
      unfold formatKamailioConfig
      rw [hu]
      rfl
    refine ⟨⟨s, String.mk []⟩, h1, ?_⟩
    rw [show ((⟨s, String.mk []⟩ : KamailioConfig).formattedContent).data
      = ([] : List Char) from rfl]
    decide
  · have hclsL : ∀ l ∈ splitLines (jsTrim (s.data)), ClassLine (jsTrim l) :=
      fun l hl => class5_classLine (jsTrim l) (hc5 l hl)
    have hrun := runFormat_class (splitLines (jsTrim (s.data))) 0 [] (le_refl 0) hclsL
    have hfmt : formatKamailioConfig s =
        some ⟨s, String.mk (joinLines (emitAll 0 (splitLines (jsTrim (s.data)))))⟩ := by
      unfold formatKamailioConfig
      rw [show initState = (⟨0, false, []⟩ : FmtState) from rfl, hrun]
      simp only [Option.map_some', List.nil_append]
    cases hu2 : jsTrim (s.data) with
    | nil => exact absurd hu2 hu
    | cons c0 u' =>
      have hc0ws : wsChar c0 = false := jsTrim_head_not_ws (s.data) c0 u' hu2
      have hc0nl : c0 ≠ '\n' := by
        intro hc
        rw [hc] at hc0ws
        exact absurd hc0ws (by decide)
      have hL : splitLines (jsTrim (s.data)) =
          (c0 :: (splitLinesA u').1) :: (splitLinesA u').2 := by
        rw [hu2]
        exact splitLines_cons_ne c0 u' hc0nl
      have hnl_os : ∀ o ∈ emitAll 0 (splitLines (jsTrim (s.data))), '\n' ∉ o :=
        emitAll_no_nl _ 0 (mem_splitLines_no_nl _)
      have hos_ne : emitAll 0 (splitLines (jsTrim (s.data))) ≠ [] := by
        rw [hL]
        exact emitAll_ne_nil 0 _ _
      have hsplit : splitLines (joinLines (emitAll 0 (splitLines (jsTrim (s.data))))) =
          emitAll 0 (splitLines (jsTrim (s.data))) :=
        splitLines_joinLines _ hos_ne hnl_os
      have hscan : scanOk 0 ((splitLines (jsTrim (s.data))).map jsTrim) :=
        validator_scanOk_trimmedDoc s hv
      have hcons := consist_run (splitLines (jsTrim (s.data))) 0 (le_refl 0) hc5 hscan
      refine ⟨⟨s, String.mk (joinLines (emitAll 0 (splitLines (jsTrim (s.data)))))⟩,
        hfmt, ?_⟩
      rw [show ((⟨s, String.mk (joinLines (emitAll 0 (splitLines (jsTrim (s.data)))))⟩ :
        KamailioConfig).formattedContent).data =
        joinLines (emitAll 0 (splitLines (jsTrim (s.data)))) from rfl]
      rw [hsplit]
      exact hcons.1

/-- Witness for the amended claim C5 at a concrete input with a brace
block. -/
theorem indent_tracks_brace_depth_witness :
    validateKamailioConfig "a \x7b\nb();\n\x7d" = Except.ok () ∧
    braceTrackedLines "a \x7b\nb();\n\x7d" = true ∧
    ∃ c, formatKamailioConfig "a \x7b\nb();\n\x7d" = some c ∧
      indentConsistentB (splitLines ((c.formattedContent).data)) = true :=
  ⟨by decide, by decide,
    indent_tracks_brace_depth "a \x7b\nb();\n\x7d" (by decide) (by decide)⟩
